import Mathlib

/-!
Verification development for the GoodMock mock/record HTTP server
(gooddata/goodmock). The Go sources are shallowly embedded: pure Go
functions become Lean functions; Go maps become association lists (a map
plus one iteration order); `[]byte` values that the program only ever
treats as text become `String`; the Go standard regexp engine (an external
library, not part of this repository) is abstracted as an oracle parameter
`String → Option (String → Bool)` giving, for each pattern that compiles,
its unanchored match predicate.

JSON numbers: Go decodes numbers to `float64` and re-serializes them with
the shortest-representation algorithm. The model keeps the exact decimal
value as a sign, a mantissa with no trailing zeros, and a power of ten,
and mirrors Go's formatting thresholds (`'e'` format iff the decimal
exponent is < -6 or >= 21, with encoding/json's exponent-digit trimming).
The two agree on every number whose decimal representation fits in a
float64 without rounding; literals needing more than float64 precision
are distinguished by the model but may collide in Go. No claim below
touches that corner.
-/

namespace GoodMock

/-- JSON values as produced by Go `encoding/json.Unmarshal` into
`interface{}`: null, booleans, numbers (`float64`, modelled exactly as
sign/mantissa/exponent), strings, arrays (`[]any`) and objects
(`map[string]any`, modelled as an association list that the parser keeps
sorted by key, mirroring the fact that a Go map is unordered and
`json.Marshal` emits its keys sorted). -/
inductive JsonVal where
  | null
  | bool (b : Bool)
  | num (neg : Bool) (m : Nat) (e : Int)
  | str (s : String)
  | arr (elems : List JsonVal)
  | obj (fields : List (String × JsonVal))
deriving Inhabited

mutual
/-- Decidable equality on JSON values (spelled out because `deriving` does
not handle the nesting through `List`). -/
def decEqJ : (a b : JsonVal) → Decidable (a = b)
  | .null, .null => isTrue rfl
  | .bool x, .bool y =>
    if h : x = y then isTrue (by rw [h]) else isFalse (fun he => h (by injection he))
  | .num n1 m1 e1, .num n2 m2 e2 =>
    if h : n1 = n2 ∧ m1 = m2 ∧ e1 = e2 then
      isTrue (by obtain ⟨h1, h2, h3⟩ := h; rw [h1, h2, h3])
    else
      isFalse (fun he => by
        injection he with h1 h2 h3
        exact h ⟨h1, h2, h3⟩)
  | .str x, .str y =>
    if h : x = y then isTrue (by rw [h]) else isFalse (fun he => h (by injection he))
  | .arr xs, .arr ys =>
    match decEqJL xs ys with
    | isTrue h => isTrue (by rw [h])
    | isFalse h => isFalse (fun he => h (by injection he))
  | .obj fs, .obj gs =>
    match decEqJF fs gs with
    | isTrue h => isTrue (by rw [h])
    | isFalse h => isFalse (fun he => h (by injection he))
  | .null, .bool _ => isFalse nofun
  | .null, .num _ _ _ => isFalse nofun
  | .null, .str _ => isFalse nofun
  | .null, .arr _ => isFalse nofun
  | .null, .obj _ => isFalse nofun
  | .bool _, .null => isFalse nofun
  | .bool _, .num _ _ _ => isFalse nofun
  | .bool _, .str _ => isFalse nofun
  | .bool _, .arr _ => isFalse nofun
  | .bool _, .obj _ => isFalse nofun
  | .num _ _ _, .null => isFalse nofun
  | .num _ _ _, .bool _ => isFalse nofun
  | .num _ _ _, .str _ => isFalse nofun
  | .num _ _ _, .arr _ => isFalse nofun
  | .num _ _ _, .obj _ => isFalse nofun
  | .str _, .null => isFalse nofun
  | .str _, .bool _ => isFalse nofun
  | .str _, .num _ _ _ => isFalse nofun
  | .str _, .arr _ => isFalse nofun
  | .str _, .obj _ => isFalse nofun
  | .arr _, .null => isFalse nofun
  | .arr _, .bool _ => isFalse nofun
  | .arr _, .num _ _ _ => isFalse nofun
  | .arr _, .str _ => isFalse nofun
  | .arr _, .obj _ => isFalse nofun
  | .obj _, .null => isFalse nofun
  | .obj _, .bool _ => isFalse nofun
  | .obj _, .num _ _ _ => isFalse nofun
  | .obj _, .str _ => isFalse nofun
  | .obj _, .arr _ => isFalse nofun

/-- Decidable equality on lists of JSON values. -/
def decEqJL : (a b : List JsonVal) → Decidable (a = b)
  | [], [] => isTrue rfl
  | [], _ :: _ => isFalse nofun
  | _ :: _, [] => isFalse nofun
  | x :: xs, y :: ys =>
    match decEqJ x y, decEqJL xs ys with
    | isTrue h1, isTrue h2 => isTrue (by rw [h1, h2])
    | isFalse h1, _ => isFalse (fun he => by injection he with a b; exact h1 a)
    | _, isFalse h2 => isFalse (fun he => by injection he with a b; exact h2 b)

/-- Decidable equality on field lists of JSON objects. -/
def decEqJF : (a b : List (String × JsonVal)) → Decidable (a = b)
  | [], [] => isTrue rfl
  | [], _ :: _ => isFalse nofun
  | _ :: _, [] => isFalse nofun
  | (k1, v1) :: xs, (k2, v2) :: ys =>
    match decEq k1 k2, decEqJ v1 v2, decEqJF xs ys with
    | isTrue h0, isTrue h1, isTrue h2 => isTrue (by rw [h0, h1, h2])
    | isFalse h0, _, _ => isFalse (fun he => by
        injection he with a b
        exact h0 (congrArg Prod.fst a))
    | _, isFalse h1, _ => isFalse (fun he => by
        injection he with a b
        exact h1 (congrArg Prod.snd a))
    | _, _, isFalse h2 => isFalse (fun he => by injection he with a b; exact h2 b)
end

instance : DecidableEq JsonVal := decEqJ

/-- Strict lexicographic order on character lists by codepoint, which on
valid UTF-8 text coincides with Go's byte-wise string comparison (UTF-8
preserves codepoint order). Defined from scratch so that it is
structurally recursive and kernel-evaluable. -/
def charListLt : List Char → List Char → Bool
  | [], [] => false
  | [], _ :: _ => true
  | _ :: _, [] => false
  | a :: as, b :: bs => a.toNat < b.toNat || (a.toNat = b.toNat && charListLt as bs)

/-- Go `a < b` on strings (byte order). -/
def strLt (a b : String) : Bool := charListLt a.toList b.toList

/-- Go `a <= b` on strings (byte order). -/
def strLe (a b : String) : Bool := !(strLt b a)

/-- Lowercase hexadecimal digit, as used by Go's JSON string encoder. -/
def hexDigit (n : Nat) : Char :=
  if n < 10 then Char.ofNat (48 + n) else Char.ofNat (87 + n % 16)

/-- Four lowercase hex digits, the `XXXX` of a `\uXXXX` escape. -/
def hex4 (n : Nat) : String :=
  String.mk [hexDigit (n / 4096 % 16), hexDigit (n / 256 % 16),
             hexDigit (n / 16 % 16), hexDigit (n % 16)]

/-- Escaping of one character by Go `encoding/json`'s string encoder with
HTML escaping on (the default used by `json.Marshal`): `"` and `\` get a
backslash, `\n`/`\r`/`\t` their short forms, other control characters,
`<`, `>`, `&`, U+2028 and U+2029 become `\uXXXX`, everything else is
copied. -/
def escChar (c : Char) : String :=
  if c = '"' then "\\\""
  else if c = '\\' then "\\\\"
  else if c = '<' || c = '>' || c = '&' then "\\u" ++ hex4 c.toNat
  else if c = '\n' then "\\n"
  else if c = '\r' then "\\r"
  else if c = '\t' then "\\t"
  else if c.toNat < 32 then "\\u" ++ hex4 c.toNat
  else if c.toNat = 8232 || c.toNat = 8233 then "\\u" ++ hex4 c.toNat
  else String.singleton c

/-- Go JSON encoding of a string literal (quotes included). -/
def quoteStr (s : String) : String :=
  "\"" ++ String.join (s.toList.map escChar) ++ "\""

/-- Character of one decimal digit. -/
def digitChar (d : Nat) : Char := Char.ofNat (48 + d % 10)

/-- Decimal digits of a natural number, most significant first (fuelled
so the definition stays structurally recursive and kernel-evaluable). -/
def natDigitsAux : Nat → Nat → List Char
  | 0, _ => []
  | fuel + 1, n =>
    if n < 10 then [digitChar n]
    else natDigitsAux fuel (n / 10) ++ [digitChar (n % 10)]

/-- Decimal digit characters of a natural number. -/
def natDigits (n : Nat) : List Char := natDigitsAux (n + 1) n

/-- Decimal string of a natural number. -/
def natStr (n : Nat) : String := String.mk (natDigits n)

/-- Rendering of a nonnegative decimal mantissa/exponent pair the way Go
`encoding/json` renders a `float64`: plain decimal when the decimal
exponent is in [-6, 21), otherwise `d.ddde±X` scientific notation with
encoding/json's trimming of a leading zero in a two-digit negative
exponent. The mantissa `m` carries no trailing zeros, so the plain form
is the shortest representation, as `strconv` produces. -/
def formatNumBody (m : Nat) (e : Int) : String :=
  if m = 0 then "0" else
  let ds := natDigits m
  let n := ds.length
  let d : Int := (n : Int) - 1 + e
  if d < -6 || 21 ≤ d then
    let mant := if n = 1 then String.mk ds
      else String.mk (ds.take 1) ++ "." ++ String.mk (ds.drop 1)
    mant ++ (if d < 0 then "e-" ++ natStr (-d).toNat else "e+" ++ natStr d.toNat)
  else if 0 ≤ e then String.mk (ds ++ List.replicate e.toNat '0')
  else
    let k := (-e).toNat
    if k < n then String.mk (ds.take (n - k)) ++ "." ++ String.mk (ds.drop (n - k))
    else "0." ++ String.mk (List.replicate (k - n) '0' ++ ds)

/-- Go JSON rendering of a number, sign included (`-0` keeps its sign,
as `strconv` prints the negative zero float with a minus). -/
def formatNum (neg : Bool) (m : Nat) (e : Int) : String :=
  (if neg then "-" else "") ++ formatNumBody m e

/-- Key order on object fields: Go `json.Marshal` sorts map keys by byte
order. -/
def fieldLe (a b : String × JsonVal) : Prop := strLe a.1 b.1 = true

instance : DecidableRel fieldLe := fun a b => inferInstanceAs (Decidable (strLe a.1 b.1 = true))

mutual
/-- Recursive re-ordering of every object's fields into sorted key order.
Composed with the order-respecting serializer below this models Go
`json.Marshal` of a decoded value, whose map keys are emitted sorted.
On values coming out of the parser (which already keeps fields sorted)
this is the identity. -/
def canonOrder : JsonVal → JsonVal
  | .arr xs => .arr (canonElems xs)
  | .obj fs => .obj ((canonFields fs).insertionSort fieldLe)
  | v => v

/-- Elementwise `canonOrder` over an array's elements. -/
def canonElems : List JsonVal → List JsonVal
  | [] => []
  | x :: xs => canonOrder x :: canonElems xs

/-- `canonOrder` over the values of an object's fields. -/
def canonFields : List (String × JsonVal) → List (String × JsonVal)
  | [] => []
  | (k, v) :: fs => (k, canonOrder v) :: canonFields fs
end

mutual
/-- Serialization of a JSON value in the exact compact form Go
`json.Marshal` produces, emitting object fields in list order (callers
sort them first via `canonOrder`). -/
def marshalRaw : JsonVal → String
  | .null => "null"
  | .bool b => if b then "true" else "false"
  | .num neg m e => formatNum neg m e
  | .str s => quoteStr s
  | .arr xs => "[" ++ marshalRawElems xs ++ "]"
  | .obj fs => "\x7b" ++ marshalRawFields fs ++ "\x7d"

/-- Comma-separated serialization of array elements. -/
def marshalRawElems : List JsonVal → String
  | [] => ""
  | [x] => marshalRaw x
  | x :: y :: xs => marshalRaw x ++ "," ++ marshalRawElems (y :: xs)

/-- Comma-separated serialization of object fields. -/
def marshalRawFields : List (String × JsonVal) → String
  | [] => ""
  | [(k, v)] => quoteStr k ++ ":" ++ marshalRaw v
  | (k, v) :: f :: fs => quoteStr k ++ ":" ++ marshalRaw v ++ "," ++ marshalRawFields (f :: fs)
end

/-- Go `json.Marshal` of a decoded JSON value: object keys sorted, no
inter-token whitespace, strings HTML-escaped. -/
def marshal (v : JsonVal) : String := marshalRaw (canonOrder v)

/-! JSON parsing, modelling Go `encoding/json.Unmarshal` into
`interface{}`. The recursive-descent functions run on `List Char` with a
fuel parameter for termination; the top-level entry point supplies enough
fuel that it is never exhausted on any input it accepts. -/

/-- JSON inter-token whitespace, as accepted by Go's scanner. -/
def isWsC (c : Char) : Bool := c = ' ' || c = '\t' || c = '\n' || c = '\r'

/-- Dropping leading JSON whitespace. -/
def skipWsL : List Char → List Char
  | [] => []
  | c :: cs => if isWsC c then skipWsL cs else c :: cs

/-- Value of one hexadecimal digit, if it is one. -/
def hexVal : Char → Option Nat := fun c =>
  if '0' ≤ c ∧ c ≤ '9' then some (c.toNat - 48)
  else if 'a' ≤ c ∧ c ≤ 'f' then some (c.toNat - 87)
  else if 'A' ≤ c ∧ c ≤ 'F' then some (c.toNat - 70)
  else none

/-- Four hex digits of a `\uXXXX` escape. -/
def hex4Val : List Char → Option (Nat × List Char)
  | a :: b :: c :: d :: rest => do
    let va ← hexVal a
    let vb ← hexVal b
    let vc ← hexVal c
    let vd ← hexVal d
    pure (va * 4096 + vb * 256 + vc * 16 + vd, rest)
  | _ => none

/-- The Unicode replacement character Go substitutes for unpaired
surrogates in `\u` escapes. -/
def replacementChar : Char := Char.ofNat 0xFFFD

/-- Conversion of a scalar value from a `\u` escape to a character:
surrogate halves cannot be represented and become U+FFFD, exactly as in
Go's `unquote`. -/
def charOfScalar (n : Nat) : Char :=
  if n.isValidChar then Char.ofNat n else replacementChar

/-- String-body parser: consumes the characters after an opening quote up
to and including the closing quote, decoding escapes the way Go's JSON
unquoter does (including combining `\uD800`–`\uDBFF`/`\uDC00`–`\uDFFF`
surrogate pairs and replacing unpaired surrogates with U+FFFD). Raw
control characters below 0x20 are rejected. -/
def pStrBody : Nat → List Char → Option (List Char × List Char)
  | 0, _ => none
  | _ + 1, [] => none
  | fuel + 1, c :: cs =>
    if c = '"' then some ([], cs)
    else if c = '\\' then
      match cs with
      | [] => none
      | e :: cs' =>
        let simple : Option Char :=
          if e = '"' then some '"'
          else if e = '\\' then some '\\'
          else if e = '/' then some '/'
          else if e = 'b' then some (Char.ofNat 8)
          else if e = 'f' then some (Char.ofNat 12)
          else if e = 'n' then some '\n'
          else if e = 'r' then some '\r'
          else if e = 't' then some '\t'
          else none
        match simple with
        | some ch => do
          let (out, rest) ← pStrBody fuel cs'
          pure (ch :: out, rest)
        | none =>
          if e = 'u' then do
            let (n, cs'') ← hex4Val cs'
            if 0xD800 ≤ n ∧ n < 0xDC00 then
              match cs'' with
              | '\\' :: 'u' :: cs''' => do
                let (n2, cs4) ← hex4Val cs'''
                if 0xDC00 ≤ n2 ∧ n2 < 0xE000 then do
                  let combined := 0x10000 + (n - 0xD800) * 0x400 + (n2 - 0xDC00)
                  let (out, rest) ← pStrBody fuel cs4
                  pure (charOfScalar combined :: out, rest)
                else do
                  let (out, rest) ← pStrBody fuel cs''
                  pure (replacementChar :: out, rest)
              | _ => do
                let (out, rest) ← pStrBody fuel cs''
                pure (replacementChar :: out, rest)
            else do
              let (out, rest) ← pStrBody fuel cs''
              pure (charOfScalar n :: out, rest)
          else none
    else if c.toNat < 32 then none
    else do
      let (out, rest) ← pStrBody fuel cs
      pure (c :: out, rest)

/-- Longest prefix of decimal digits and the remainder. -/
def digitSpan : List Char → List Char × List Char
  | [] => ([], [])
  | c :: cs =>
    if c.isDigit then
      let (ds, rest) := digitSpan cs
      (c :: ds, rest)
    else ([], c :: cs)

/-- Numeric value of a list of decimal digits. -/
def natOfDigits (ds : List Char) : Nat :=
  ds.foldl (fun acc c => acc * 10 + (c.toNat - 48)) 0

/-- Removal of trailing decimal zeros from a mantissa, shifting them into
the exponent, so that equal `float64` values built from small decimals get
one representation (fuelled for kernel evaluability; the fuel `m` always
suffices since each step divides the mantissa by ten). -/
def stripZerosAux : Nat → Nat → Int → Nat × Int
  | 0, m, e => (m, e)
  | fuel + 1, m, e =>
    if m ≠ 0 ∧ m % 10 = 0 then stripZerosAux fuel (m / 10) (e + 1)
    else (m, e)

/-- Normalization of a mantissa/exponent pair: no trailing zeros. -/
def stripZeros (m : Nat) (e : Int) : Nat × Int := stripZerosAux m m e

/-- Number parser for the JSON grammar Go accepts:
`-?(0|[1-9][0-9]*)(\.[0-9]+)?([eE][+-]?[0-9]+)?`, normalized to a
sign/mantissa/exponent triple. -/
def pNum (cs : List Char) : Option ((Bool × Nat × Int) × List Char) :=
  let (neg, cs1) := match cs with
    | '-' :: rest => (true, rest)
    | rest => (false, rest)
  let (intDs, cs2) := digitSpan cs1
  if intDs.isEmpty then none
  else if intDs.length > 1 ∧ intDs.head? = some '0' then none
  else
    let (fracDs, cs3) := match cs2 with
      | '.' :: rest => digitSpan rest
      | _ => ([], cs2)
    let hadDot := match cs2 with
      | '.' :: _ => true
      | _ => false
    if hadDot ∧ fracDs.isEmpty then none
    else
      let expParsed : Option (Int × List Char) := match cs3 with
        | 'e' :: rest | 'E' :: rest =>
          let (esign, rest') := match rest with
            | '+' :: r => ((1 : Int), r)
            | '-' :: r => ((-1 : Int), r)
            | r => ((1 : Int), r)
          let (expDs, rest'') := digitSpan rest'
          if expDs.isEmpty then none
          else some (esign * (natOfDigits expDs : Int), rest'')
        | _ => some (0, cs3)
      match expParsed with
      | none => none
      | some (x, cs4) =>
        let m0 := natOfDigits (intDs ++ fracDs)
        let e0 : Int := x - (fracDs.length : Int)
        if m0 = 0 then some ((neg, 0, 0), cs4)
        else
          let (m, e) := stripZeros m0 e0
          some ((neg, m, e), cs4)

/-- Insertion of a field into a key-sorted field list, the later value
replacing an earlier one on an equal key — the model of `m[k] = v` on a
Go `map[string]any` (last duplicate key wins, key set kept sorted so the
list order matches the order `json.Marshal` would emit). -/
def insertField (k : String) (v : JsonVal) : List (String × JsonVal) → List (String × JsonVal)
  | [] => [(k, v)]
  | (k', v') :: fs =>
    if strLt k k' then (k, v) :: (k', v') :: fs
    else if k = k' then (k, v) :: fs
    else (k', v') :: insertField k v fs

mutual
/-- Value parser: dispatch on the first (non-whitespace) character, per
the JSON grammar accepted by Go's decoder. -/
def pVal : Nat → List Char → Option (JsonVal × List Char)
  | 0, _ => none
  | _ + 1, [] => none
  | fuel + 1, c :: cs =>
    if c = '"' then do
      let (body, rest) ← pStrBody (cs.length + 1) cs
      pure (.str (String.mk body), rest)
    else if c = '[' then pArrElems fuel (skipWsL cs) true
    else if c = '\x7b' then pObjFields fuel (skipWsL cs) true []
    else if c = 't' then
      match c :: cs with
      | 't' :: 'r' :: 'u' :: 'e' :: rest => some (.bool true, rest)
      | _ => none
    else if c = 'f' then
      match c :: cs with
      | 'f' :: 'a' :: 'l' :: 's' :: 'e' :: rest => some (.bool false, rest)
      | _ => none
    else if c = 'n' then
      match c :: cs with
      | 'n' :: 'u' :: 'l' :: 'l' :: rest => some (.null, rest)
      | _ => none
    else if c = '-' ∨ c.isDigit then do
      let ((neg, m, e), rest) ← pNum (c :: cs)
      pure (.num neg m e, rest)
    else none

/-- Array-elements parser, entered after `[` (with `first = true`) or
after a `,`; handles the empty array and the `, value` repetition. -/
def pArrElems : Nat → List Char → Bool → Option (JsonVal × List Char)
  | 0, _, _ => none
  | fuel + 1, cs, first =>
    match cs with
    | ']' :: rest =>
      if first then some (.arr [], rest) else none
    | _ => do
      let (v, rest) ← pVal fuel cs
      match skipWsL rest with
      | ',' :: rest' => do
        let (tl, rest'') ← pArrElems fuel (skipWsL rest') false
        match tl with
        | .arr xs => pure (.arr (v :: xs), rest'')
        | _ => none
      | ']' :: rest' => pure (.arr [v], rest')
      | _ => none

/-- Object-fields parser, entered after an opening brace: `"key" : value`
pairs separated by commas, accumulated into the sorted field list. -/
def pObjFields : Nat → List Char → Bool → List (String × JsonVal) → Option (JsonVal × List Char)
  | 0, _, _, _ => none
  | fuel + 1, cs, first, acc =>
    match cs with
    | '\x7d' :: rest =>
      if first then some (.obj acc, rest) else none
    | '"' :: cs' => do
      let (kbody, rest) ← pStrBody (cs'.length + 1) cs'
      let k := String.mk kbody
      match skipWsL rest with
      | ':' :: rest' => do
        let (v, rest'') ← pVal fuel (skipWsL rest')
        match skipWsL rest'' with
        | ',' :: rest3 => pObjFields fuel (skipWsL rest3) false (insertField k v acc)
        | '\x7d' :: rest3 => pure (.obj (insertField k v acc), rest3)
        | _ => none
      | _ => none
    | _ => none
end

/-- Go `json.Unmarshal` of a text into an `interface{}` value: one JSON
value surrounded by optional whitespace, anything else (including
trailing garbage) is an error, modelled as `none`. -/
def goUnmarshal (s : String) : Option JsonVal :=
  let cs := skipWsL s.toList
  match pVal (2 * cs.length + 2) cs with
  | some (v, rest) => if skipWsL rest = [] then some v else none
  | none => none

example : goUnmarshal "\x7b \"b\" : 1, \"a\": [1.50, \"x\"] \x7d" =
    some (.obj [("a", .arr [.num false 15 (-1), .str "x"]), ("b", .num false 1 0)]) := by
  decide

example : marshal (.obj [("b", .num false 1 0), ("a", .str "x")]) = "\x7b\"a\":\"x\",\"b\":1\x7d" := by
  decide

example : goUnmarshal "" = none := by decide

example : goUnmarshal "1e2" = some (.num false 1 2) := by decide

example : marshal (.num false 1 2) = "100" := by decide

/-! Order-theoretic facts about the byte-order comparison, needed to use
the sorting lemmas from the library. -/

theorem charListLt_irrefl : ∀ l, charListLt l l = false
  | [] => rfl
  | a :: as => by simp [charListLt, charListLt_irrefl as]

theorem charListLt_trans : ∀ {a b c : List Char}, charListLt a b = true →
    charListLt b c = true → charListLt a c = true
  | [], [], _ :: _, _, _ => rfl
  | [], _ :: _, _ :: _, _, _ => rfl
  | a :: as, b :: bs, c :: cs, h1, h2 => by
    simp only [charListLt, Bool.or_eq_true, Bool.and_eq_true, decide_eq_true_eq] at h1 h2 ⊢
    rcases h1 with h1 | ⟨h1e, h1r⟩ <;> rcases h2 with h2 | ⟨h2e, h2r⟩
    · exact Or.inl (Nat.lt_trans h1 h2)
    · exact Or.inl (h2e ▸ h1)
    · exact Or.inl (h1e ▸ h2)
    · exact Or.inr ⟨h1e.trans h2e, charListLt_trans h1r h2r⟩

theorem charListLt_connex : ∀ {a b : List Char}, charListLt a b = false →
    charListLt b a = false → a = b
  | [], [], _, _ => rfl
  | a :: as, b :: bs, h1, h2 => by
    simp only [charListLt, Bool.or_eq_false_iff, Bool.and_eq_false_iff,
      decide_eq_false_iff_not, decide_eq_true_eq] at h1 h2
    obtain ⟨h1n, h1r⟩ := h1
    obtain ⟨h2n, h2r⟩ := h2
    have he : a.toNat = b.toNat := by omega
    have hab : a = b := by
      have hv : a.val = b.val := by
        have : a.val.toNat = b.val.toNat := he
        exact UInt32.toNat.inj this
      exact Char.eq_of_val_eq hv
    subst hab
    rcases h1r with h | h
    · exact absurd rfl h
    · rcases h2r with h' | h'
      · exact absurd rfl h'
      · exact congrArg (a :: ·) (charListLt_connex h h')

theorem strLt_trans {a b c : String} (h1 : strLt a b = true) (h2 : strLt b c = true) :
    strLt a c = true := charListLt_trans h1 h2

theorem strLt_asymm {a b : String} (h1 : strLt a b = true) (h2 : strLt b a = true) : False := by
  have h := charListLt_trans h1 h2
  rw [charListLt_irrefl] at h
  exact Bool.noConfusion h

theorem strLe_total (a b : String) : strLe a b = true ∨ strLe b a = true := by
  by_cases h : strLt b a = true
  · right
    simp only [strLe, Bool.not_eq_true']
    cases hx : strLt a b
    · rfl
    · exact absurd (strLt_asymm hx h) id
  · left
    simp only [strLe, Bool.not_eq_true']
    exact Bool.not_eq_true _ ▸ h

theorem strLe_trans {a b c : String} (h1 : strLe a b = true) (h2 : strLe b c = true) :
    strLe a c = true := by
  simp only [strLe, Bool.not_eq_true'] at h1 h2 ⊢
  cases hca : strLt c a
  · rfl
  · exfalso
    cases hab : strLt a b
    · cases hba : strLt b a
      · have : a = b := by
          have := charListLt_connex (a := a.toList) (b := b.toList) hab hba
          exact congrArg String.mk this
        subst this
        rw [hca] at h2
        exact Bool.noConfusion h2
      · rw [hba] at h1
        exact Bool.noConfusion h1
    · have := strLt_trans hca hab
      rw [this] at h2
      exact Bool.noConfusion h2

/-! A structural induction principle for `JsonVal` that recurses through
the nested lists, used by the proofs about the array normalizer. -/

theorem jsonInd (P : JsonVal → Prop)
    (h1 : P .null) (h2 : ∀ b, P (.bool b)) (h3 : ∀ n m e, P (.num n m e))
    (h4 : ∀ s, P (.str s))
    (h5 : ∀ xs, (∀ x ∈ xs, P x) → P (.arr xs))
    (h6 : ∀ fs, (∀ p ∈ fs, P p.2) → P (.obj fs)) : ∀ v, P v
  | .null => h1
  | .bool b => h2 b
  | .num n m e => h3 n m e
  | .str s => h4 s
  | .arr xs => h5 xs (fun x hx => jsonInd P h1 h2 h3 h4 h5 h6 x)
  | .obj fs => h6 fs (fun p hp => jsonInd P h1 h2 h3 h4 h5 h6 p.2)
termination_by v => sizeOf v
decreasing_by
  · have := List.sizeOf_lt_of_mem hx
    simp only [JsonVal.arr.sizeOf_spec]
    omega
  · have hm := List.sizeOf_lt_of_mem hp
    obtain ⟨k, v'⟩ := p
    simp only [JsonVal.obj.sizeOf_spec, Prod.mk.sizeOf_spec] at hm ⊢
    omega

/-! The array normalizer: `internal/jsonutil.SortArrays`. -/

/-- Comparator used when sorting array elements: Go sorts by
`string(json.Marshal(elem))` with `sort.SliceStable` and a strict `<`
comparison; a stable sort under the strict order equals a stable sort
under the corresponding `≤`, which is what `List.insertionSort` is. -/
def arrLe (a b : JsonVal) : Prop := strLe (marshal a) (marshal b) = true

instance : DecidableRel arrLe := fun a b =>
  inferInstanceAs (Decidable (strLe (marshal a) (marshal b) = true))

instance : IsTotal JsonVal arrLe := ⟨fun a b => strLe_total (marshal a) (marshal b)⟩

instance : IsTrans JsonVal arrLe := ⟨fun _ _ _ h1 h2 => strLe_trans h1 h2⟩

mutual
/-- Model of `jsonutil.SortArrays`: recursively walks a JSON value
bottom-up; object member values are normalized in place (the key set is
untouched); arrays are normalized elementwise first, then stably sorted
by the canonical JSON serialization of each element. -/
def sortArrays : JsonVal → JsonVal
  | .obj fs => .obj (sortArraysFields fs)
  | .arr xs => .arr ((sortArraysElems xs).insertionSort arrLe)
  | v => v

/-- Elementwise `sortArrays` over an array's elements (the recursion into
each element, done before the enclosing array is sorted). -/
def sortArraysElems : List JsonVal → List JsonVal
  | [] => []
  | x :: xs => sortArrays x :: sortArraysElems xs

/-- `sortArrays` over each member value of an object. -/
def sortArraysFields : List (String × JsonVal) → List (String × JsonVal)
  | [] => []
  | (k, v) :: fs => (k, sortArrays v) :: sortArraysFields fs
end

theorem sortArraysElems_eq_map : ∀ xs, sortArraysElems xs = xs.map sortArrays
  | [] => rfl
  | x :: xs => by simp [sortArraysElems, sortArraysElems_eq_map xs]

theorem sortArraysFields_eq_map :
    ∀ fs, sortArraysFields fs = fs.map (fun p => (p.1, sortArrays p.2))
  | [] => rfl
  | (k, v) :: fs => by simp [sortArraysFields, sortArraysFields_eq_map fs]

example : sortArrays (.arr [.num false 3 0, .num false 1 0, .num false 2 0]) =
    .arr [.num false 1 0, .num false 2 0, .num false 3 0] := by decide

example : sortArrays (.arr [.arr [.str "z", .str "a"], .arr [.str "m", .str "b"]]) =
    .arr [.arr [.str "a", .str "z"], .arr [.str "b", .str "m"]] := by decide

/-- C7: the array-normalizing transform is idempotent: for every JSON
value `v`, `SortArrays (SortArrays v) = SortArrays v`. -/
theorem claim_C7_sortArrays_idempotent :
    ∀ v : JsonVal, sortArrays (sortArrays v) = sortArrays v := by
  intro v
  induction v using jsonInd with
  | h1 => simp [sortArrays]
  | h2 b => simp [sortArrays]
  | h3 n m e => simp [sortArrays]
  | h4 s => simp [sortArrays]
  | h5 xs ih =>
    simp only [sortArrays, sortArraysElems_eq_map]
    congr 1
    have hmem : ∀ y ∈ (xs.map sortArrays).insertionSort arrLe, sortArrays y = y := by
      intro y hy
      rw [List.mem_insertionSort] at hy
      obtain ⟨x, hx, rfl⟩ := List.mem_map.mp hy
      exact ih x hx
    have hmap : ((xs.map sortArrays).insertionSort arrLe).map sortArrays =
        (xs.map sortArrays).insertionSort arrLe := by
      calc ((xs.map sortArrays).insertionSort arrLe).map sortArrays
          = ((xs.map sortArrays).insertionSort arrLe).map id :=
            List.map_congr_left hmem
        _ = (xs.map sortArrays).insertionSort arrLe := List.map_id _
    rw [hmap]
    exact List.Sorted.insertionSort_eq (List.sorted_insertionSort arrLe _)
  | h6 fs ih =>
    simp only [sortArrays, sortArraysFields_eq_map, List.map_map]
    congr 1
    apply List.map_congr_left
    intro p hp
    simp only [Function.comp_apply]
    rw [ih p hp]

/-! The stub-matching engine: the data model of `types.go` and the
functions of `matching.go`. Go maps (`QueryParameters`, `Headers`) are
modelled as association lists: one list value stands for the map contents
*in one iteration order*; Go randomizes that order between `range` loops,
which is why a permutation of such a list models a second invocation on
the same map. The Go regexp engine is the oracle parameter `R`. Request
headers are modelled by the lookup function fasthttp's `Peek` provides
(empty string when absent). `[]byte` bodies are modelled as `String`. -/

/-- An `equalTo` matcher entry (`types.EqualMatcher`). -/
structure EqualMatcher where
  equalTo : String
deriving DecidableEq, Inhabited

/-- A query-parameter matcher (`types.QueryParamMatcher`): `equalTo` or a
`hasExactly` list; the empty string / empty list are Go's zero values for
the absent variants. -/
structure QueryParamMatcher where
  equalTo : String
  hasExactly : List EqualMatcher
deriving DecidableEq, Inhabited

/-- A body pattern (`types.BodyPattern`); `equalToJson` is the raw JSON
text of the field (Go `json.RawMessage`), `none` for a nil field. -/
structure BodyPattern where
  equalToJson : Option String
  ignoreArrayOrder : Option Bool
  ignoreExtraElements : Option Bool
deriving DecidableEq, Inhabited

/-- A header matcher (`types.HeaderMatcher`). -/
structure HeaderMatcher where
  equalTo : String
  contains : String
deriving DecidableEq, Inhabited

/-- Request-matching criteria (`types.Request`). -/
structure Request where
  url : String
  urlPath : String
  urlPattern : String
  method : String
  queryParameters : List (String × QueryParamMatcher)
  bodyPatterns : List BodyPattern
  headers : List (String × HeaderMatcher)
deriving DecidableEq, Inhabited

/-- A stub response body in record mode is either raw JSON text
(`json.RawMessage`, key order preserved) or a decoded value; replay mode
only uses `val`. -/
inductive JBody where
  | raw (s : String)
  | val (v : JsonVal)
deriving DecidableEq

/-- A stub response (`types.Response`; the `jsonBody` field appears in the
record-mode converter's output). -/
structure Response where
  status : Int
  body : String
  headers : List (String × JsonVal)
  jsonBody : Option JBody
deriving DecidableEq, Inhabited

/-- One stub (`types.Mapping`); absent scenario fields are `""`, Go's zero
string, exactly as in the Go struct. -/
structure Mapping where
  name : String
  scenarioName : String
  requiredScenarioState : String
  newScenarioState : String
  request : Request
  response : Response
deriving DecidableEq, Inhabited

/-- Result of evaluating one stub (`MatchResult` of `types.go`); Go's
`Mapping *Mapping` pointer into the server's stub slice is modelled as the
index of the stub, `none` for the nil pointer of the zero value. -/
structure MatchResult where
  matched : Bool
  mappingIdx : Option Nat
  urlMatch : Bool
  methodMatch : Bool
  queryMatch : Bool
  bodyMatch : Bool
  headerMatch : Bool
  queryDiffs : List String
  bodyDiff : String
  headerDiffs : List String
deriving DecidableEq, Inhabited

/-- The zero `MatchResult` Go starts from. -/
def zeroResult : MatchResult :=
  { matched := false, mappingIdx := none, urlMatch := false, methodMatch := false
    queryMatch := false, bodyMatch := false, headerMatch := false
    queryDiffs := [], bodyDiff := "", headerDiffs := [] }

/-- The request-side inputs of `matchRequest`, bundled: method, path,
full URI, query arguments in query-string order (fasthttp `Args.VisitAll`
order), body text, and the header lookup (`RequestHeader.Peek`, `""` when
absent). -/
structure ReqInput where
  method : String
  path : String
  fullURI : String
  queryArgs : List (String × String)
  body : String
  reqHeaders : String → String

/-- Go `strings.EqualFold`, modelled by ASCII case folding (method names
in this program are ASCII; Go folds full Unicode). -/
def eqFold (a b : String) : Bool :=
  a.toList.map Char.toLower == b.toList.map Char.toLower

/-- Whether the first character list occurs contiguously in the second. -/
def occursIn : List Char → List Char → Bool
  | sub, [] => sub.isEmpty
  | sub, c :: cs => sub.isPrefixOf (c :: cs) || occursIn sub cs

/-- Go `strings.Contains`: byte-level substring, which on valid UTF-8
coincides with character-level containment. -/
def strContains (s sub : String) : Bool := occursIn sub.toList s.toList

/-- Model of `getExpectedValues` (matching.go): an `equalTo` matcher gives
one expected value, otherwise the `hasExactly` literals. -/
def getExpectedValues (matcher : QueryParamMatcher) : List String :=
  if matcher.equalTo ≠ "" then [matcher.equalTo]
  else matcher.hasExactly.map (·.equalTo)

/-- Byte order on strings as a relation, for the sorting library. -/
def strLeP (a b : String) : Prop := strLe a b = true

instance : DecidableRel strLeP := fun a b => inferInstanceAs (Decidable (strLe a b = true))

instance : IsTotal String strLeP := ⟨strLe_total⟩

instance : IsTrans String strLeP := ⟨fun _ _ _ => strLe_trans⟩

/-- Go `sort.Strings`: ascending byte order (the sorted permutation of a
string multiset is unique, so the library sort models it exactly). -/
def sortStrings (l : List String) : List String := l.insertionSort strLeP

/-- Model of `matchQueryParam` (matching.go): lengths must agree, then
the two sorted copies are compared elementwise. -/
def matchQueryParam (expected actual : List String) : Bool :=
  if expected.length ≠ actual.length then false
  else sortStrings expected == sortStrings actual

/-- Model of `matchHeader` (matching.go): `equalTo` exact match wins,
else `contains` substring, else vacuously true. -/
def matchHeader (matcher : HeaderMatcher) (actual : String) : Bool :=
  if matcher.equalTo ≠ "" then matcher.equalTo == actual
  else if matcher.contains ≠ "" then strContains actual matcher.contains
  else true

/-- The parse of the stub's expected value in `jsonEqual` (matching.go):
`json.Unmarshal` of the raw field, and — when that yields a JSON string,
i.e. the double-encoded form — `json.Unmarshal` of that string's content
instead; `none` when either parse fails. -/
def unwrapExpected (expected : String) : Option JsonVal :=
  match goUnmarshal expected with
  | some (.str s) => goUnmarshal s
  | r => r

/-- Model of `jsonEqual` (matching.go): parse the expected raw value (with
the string-unwrapping step above; Go reaches the same `none` cases by two
early `return false`s), parse the actual body, and compare the canonical
re-serializations byte for byte. Every parse failure gives `false`. -/
def jsonEqual (expected actual : String) : Bool :=
  match unwrapExpected expected with
  | none => false
  | some ev =>
    match goUnmarshal actual with
    | none => false
    | some av => marshal ev == marshal av

/-- Model of `matchBodyPatterns` (matching.go): every pattern with a
non-nil `equalToJson` must match; patterns without one impose nothing. -/
def matchBodyPatterns (patterns : List BodyPattern) (body : String) : Bool :=
  patterns.all fun p =>
    match p.equalToJson with
    | some raw => jsonEqual raw body
    | none => true

/-- Go `fmt` `%v` of a `[]string`: elements space-separated in brackets. -/
def goSliceFmt (l : List String) : String := "[" ++ " ".intercalate l ++ "]"

/-- The query-parameter loop of `evaluateMapping`: one pass over the
matcher map in iteration order, conjoining the per-parameter outcome and
appending one diff record per failing parameter (`not_present` when the
request carries no value at all under that name, `mismatch` otherwise). -/
def evalQueryParams (params : List (String × QueryParamMatcher))
    (queryArgs : List (String × String)) : Bool × List String :=
  params.foldl
    (fun acc p =>
      let expectedValues := getExpectedValues p.2
      let actualValues := (queryArgs.filter fun kv => kv.1 == p.1).map (·.2)
      if matchQueryParam expectedValues actualValues then acc
      else
        (false,
          acc.2 ++
            [if actualValues.isEmpty then
                "not_present|" ++ p.1 ++ "|" ++ goSliceFmt expectedValues
              else
                "mismatch|" ++ p.1 ++ "|" ++ goSliceFmt expectedValues ++ "|" ++
                  ",".intercalate actualValues]))
    (true, [])

/-- The header loop of `evaluateMapping`, analogous to the query loop. -/
def evalHeaders (hs : List (String × HeaderMatcher)) (reqHeaders : String → String) :
    Bool × List String :=
  hs.foldl
    (fun acc p =>
      let actualValue := reqHeaders p.1
      if matchHeader p.2 actualValue then acc
      else
        (false,
          acc.2 ++
            [if actualValue == "" then
                "not_present|" ++ p.1 ++ "|" ++ p.2.equalTo
              else
                "mismatch|" ++ p.1 ++ "|" ++ p.2.equalTo ++ "|" ++ actualValue]))
    (true, [])

/-- Model of `evaluateMapping` (matching.go): the five per-criterion
checks. URL: `url` compares against the full URI, else `urlPath` against
the path, else `urlPattern` is compiled and searched in the full URI (a
pattern that does not compile leaves the criterion false); with all three
empty the criterion stays at its zero value `false`. -/
def evaluateMapping (R : String → Option (String → Bool)) (m : Mapping) (req : ReqInput) :
    MatchResult :=
  let methodMatch := eqFold m.request.method req.method || eqFold m.request.method "ANY"
  let urlMatch :=
    if m.request.url ≠ "" then m.request.url == req.fullURI
    else if m.request.urlPath ≠ "" then m.request.urlPath == req.path
    else if m.request.urlPattern ≠ "" then
      match R m.request.urlPattern with
      | some f => f req.fullURI
      | none => false
    else false
  let qres :=
    if m.request.queryParameters.isEmpty then (true, ([] : List String))
    else evalQueryParams m.request.queryParameters req.queryArgs
  let bres :=
    if m.request.bodyPatterns.isEmpty then (true, "")
    else
      let bm := matchBodyPatterns m.request.bodyPatterns req.body
      (bm, if bm then "" else "Body does not match")
  let hres :=
    if m.request.headers.isEmpty then (true, ([] : List String))
    else evalHeaders m.request.headers req.reqHeaders
  { matched := methodMatch && urlMatch && qres.1 && bres.1 && hres.1
    mappingIdx := none
    urlMatch := urlMatch
    methodMatch := methodMatch
    queryMatch := qres.1
    bodyMatch := bres.1
    headerMatch := hres.1
    queryDiffs := qres.2
    bodyDiff := bres.2
    headerDiffs := hres.2 }

/-- Specificity of a stub (matchRequest's matched branch): criteria count
plus 100 for exact-URL matching. -/
def specificity (m : Mapping) : Nat :=
  m.request.queryParameters.length + m.request.bodyPatterns.length +
    m.request.headers.length + (if m.request.url ≠ "" then 100 else 0)

/-- Diagnostic score of a near-miss (matchRequest's unmatched branch). -/
def diagScore (r : MatchResult) : Nat :=
  (if r.methodMatch then 1 else 0) + (if r.urlMatch then 2 else 0) +
    (if r.queryMatch then 4 else 0) + (if r.bodyMatch then 8 else 0) +
    (if r.headerMatch then 16 else 0)

/-- The loop state of `matchRequest`: best result so far, its score, and
whether a full match has been seen. -/
structure MRState where
  bestMatch : MatchResult
  bestScore : Nat
  bestMatched : Bool
deriving DecidableEq

/-- Go's zero-initialized loop state. -/
def mrInit : MRState := ⟨zeroResult, 0, false⟩

/-- One iteration of the `matchRequest` loop on stub `i`. -/
def mrStep (R : String → Option (String → Bool)) (req : ReqInput) (st : MRState)
    (im : Nat × Mapping) : MRState :=
  let result := evaluateMapping R im.2 req
  if result.matched then
    if !st.bestMatched || specificity im.2 > st.bestScore then
      ⟨{ result with mappingIdx := some im.1 }, specificity im.2, true⟩
    else st
  else if !st.bestMatched then
    if diagScore result > st.bestScore then
      ⟨{ result with mappingIdx := some im.1 }, diagScore result, false⟩
    else st
  else st

/-- The `for i := range s.mappings` loop of `matchRequest`. -/
def mrLoop (R : String → Option (String → Bool)) (req : ReqInput) :
    List Mapping → Nat → MRState → MRState
  | [], _, st => st
  | m :: rest, i, st => mrLoop R req rest (i + 1) (mrStep R req st (i, m))

/-- Model of `matchRequest` (matching.go): scan every stub in insertion
order and return the best match (or best near-miss) per the scoring
rules. -/
def matchRequest (R : String → Option (String → Bool)) (mappings : List Mapping)
    (req : ReqInput) : MatchResult :=
  (mrLoop R req mappings 0 mrInit).bestMatch

/-- The always-failing regexp oracle, used for concrete inputs whose
stubs carry no `urlPattern`. -/
def oracleNone : String → Option (String → Bool) := fun _ => none

/-- A request matcher with every field at its zero value except those
overridden below; concrete examples build on it. -/
def emptyRequest : Request :=
  { url := "", urlPath := "", urlPattern := "", method := ""
    queryParameters := [], bodyPatterns := [], headers := [] }

/-- A response used by concrete example stubs. -/
def emptyResponse : Response := { status := 200, body := "", headers := [], jsonBody := none }

/-- A stub with all-zero scenario fields around a given request. -/
def mkStub (r : Request) : Mapping :=
  { name := "", scenarioName := "", requiredScenarioState := "", newScenarioState := ""
    request := r, response := emptyResponse }

/-- A request input for concrete matching examples. -/
def mkReq (method path fullURI : String) (args : List (String × String)) : ReqInput :=
  { method := method, path := path, fullURI := fullURI, queryArgs := args
    body := "", reqHeaders := fun _ => "" }

/-- The stub of the spec's `hasExactly [5, 7]` example. -/
def c6Stub : Mapping :=
  mkStub { emptyRequest with
    method := "GET", urlPath := "/items"
    queryParameters := [("id", { equalTo := "", hasExactly := [⟨"5"⟩, ⟨"7"⟩] })] }

/-- The example request carrying `id=7&id=5`. -/
def c6ReqBoth : ReqInput := mkReq "GET" "/items" "/items?id=7&id=5" [("id", "7"), ("id", "5")]

/-- The example request carrying only `id=7`. -/
def c6ReqOne : ReqInput := mkReq "GET" "/items" "/items?id=7" [("id", "7")]

/-- The example request carrying no `id` value at all. -/
def c6ReqNone : ReqInput := mkReq "GET" "/items" "/items" []

/-- C10: a stub whose request matcher leaves all three URL fields (`url`,
`urlPath`, `urlPattern`) empty can never fully match: its URL criterion
evaluates to false, so the overall matched flag of its evaluation is false
regardless of method, query, header and body criteria. -/
theorem claim_C10_absent_url_matcher_never_matches
    (R : String → Option (String → Bool)) (m : Mapping) (req : ReqInput)
    (h1 : m.request.url = "") (h2 : m.request.urlPath = "") (h3 : m.request.urlPattern = "") :
    (evaluateMapping R m req).urlMatch = false ∧ (evaluateMapping R m req).matched = false := by
  simp only [evaluateMapping, h1, h2, h3]
  simp

/-- The URL-less stub of the C10 witness: a matching method and nothing
else configured. -/
def c10Stub : Mapping := mkStub { emptyRequest with method := "GET" }

/-- Closed witness for C10 at a concrete stub and request. -/
theorem claim_C10_absent_url_matcher_never_matches_witness :
    c10Stub.request.url = "" ∧
      (evaluateMapping oracleNone c10Stub (mkReq "GET" "/x" "/x" [])).urlMatch = false ∧
      (evaluateMapping oracleNone c10Stub (mkReq "GET" "/x" "/x" [])).matched = false :=
  ⟨rfl,
    claim_C10_absent_url_matcher_never_matches oracleNone c10Stub
      (mkReq "GET" "/x" "/x" []) rfl rfl rfl⟩

/-- C6: the query criterion for a configured parameter passes iff the
multiset of actual values equals the expected list (both sorted, then
compared elementwise); `hasExactly [5,7]` for `id` matches `id=7&id=5`
but not `id=7` alone, the latter recorded as a `mismatch` diff since `id`
is present, while a request with no `id` value at all records a
`not_present` diff. -/
theorem claim_C6_query_param_order_insensitive :
    (∀ expected actual, matchQueryParam expected actual = true ↔
        sortStrings expected = sortStrings actual) ∧
      (evaluateMapping oracleNone c6Stub c6ReqBoth).queryMatch = true ∧
      (evaluateMapping oracleNone c6Stub c6ReqBoth).matched = true ∧
      (evaluateMapping oracleNone c6Stub c6ReqOne).queryMatch = false ∧
      (evaluateMapping oracleNone c6Stub c6ReqOne).matched = false ∧
      (evaluateMapping oracleNone c6Stub c6ReqOne).queryDiffs = ["mismatch|id|[5 7]|7"] ∧
      (evaluateMapping oracleNone c6Stub c6ReqNone).queryDiffs = ["not_present|id|[5 7]"] := by
  refine ⟨fun expected actual => ?_, by decide, by decide, by decide, by decide, by decide,
    by decide⟩
  unfold matchQueryParam
  by_cases h : expected.length = actual.length
  · simp only [h, ne_eq, not_true_eq_false, if_false, ite_false]
    simp [beq_iff_eq]
  · simp only [ne_eq, h, not_false_eq_true, if_true, ite_true]
    constructor
    · intro hc
      exact Bool.noConfusion hc
    · intro hc
      exfalso
      apply h
      have he : (sortStrings expected).length = (sortStrings actual).length := by rw [hc]
      simpa [sortStrings, List.length_insertionSort] using he

/-- C5: the JSON-equality body pattern matches iff the expected value
parses (unwrapped and parsed a second time when it first parses to a JSON
string), the request body parses, and the canonical re-serializations are
byte-equal; hence matching is insensitive to whitespace and object key
order, and any parse failure on either side is a non-match. -/
theorem claim_C5_equalToJson_canonical_comparison :
    (∀ expected actual, jsonEqual expected actual = true ↔
        ∃ ev av, unwrapExpected expected = some ev ∧ goUnmarshal actual = some av ∧
          marshal ev = marshal av) ∧
      jsonEqual "\"\x7b\\\"a\\\":1\x7d\"" "\x7b \"a\": 1 \x7d" = true ∧
      jsonEqual "\"\x7b\\\"a\\\":1\x7d\"" "\x7b\"a\":2\x7d" = false ∧
      jsonEqual "\x7b\"a\":1,\"b\":2\x7d" "\x7b \"b\": 2, \"a\": 1 \x7d" = true ∧
      jsonEqual "not json" "1" = false ∧
      jsonEqual "1" "not json" = false := by
  refine ⟨fun expected actual => ?_, by decide, by decide, by decide, by decide, by decide⟩
  cases hu : unwrapExpected expected with
  | none => simp [jsonEqual, hu]
  | some ev =>
    cases ha : goUnmarshal actual with
    | none => simp [jsonEqual, hu, ha]
    | some av => simp [jsonEqual, hu, ha, beq_iff_eq]

/-! Characterization of the `matchRequest` selection loop, for the claims
about which stub wins. -/

theorem mrLoop_append (R : String → Option (String → Bool)) (req : ReqInput)
    (l : List Mapping) (x : Mapping) (i : Nat) (st : MRState) :
    mrLoop R req (l ++ [x]) i st = mrStep R req (mrLoop R req l i st) (i + l.length, x) := by
  induction l generalizing i st with
  | nil => simp [mrLoop]
  | cons m l ih =>
    simp only [List.cons_append, mrLoop, List.append_eq]
    rw [ih]
    have he : i + 1 + l.length = i + (m :: l).length := by
      simp only [List.length_cons]
      omega
    rw [he]

/-- The loop invariant of `matchRequest` over a processed prefix `ms`:
when a full match has been seen, the state holds the first stub of
maximal specificity among the matching ones; otherwise the state holds
the first stub of maximal positive diagnostic score, or remains at the
zero state when every processed stub scores zero. -/
def MRInv (R : String → Option (String → Bool)) (req : ReqInput) (ms : List Mapping)
    (st : MRState) : Prop :=
  (st.bestMatched = true ↔
    ∃ i : Fin ms.length, (evaluateMapping R (ms.get i) req).matched = true) ∧
  (st.bestMatched = true →
    ∃ j : Fin ms.length,
      (evaluateMapping R (ms.get j) req).matched = true ∧
      st.bestMatch = { evaluateMapping R (ms.get j) req with mappingIdx := some j.val } ∧
      st.bestScore = specificity (ms.get j) ∧
      (∀ i : Fin ms.length, (evaluateMapping R (ms.get i) req).matched = true →
        specificity (ms.get i) ≤ specificity (ms.get j)) ∧
      (∀ i : Fin ms.length, i.val < j.val →
        (evaluateMapping R (ms.get i) req).matched = true →
        specificity (ms.get i) < specificity (ms.get j))) ∧
  (st.bestMatched = false →
    (∀ i : Fin ms.length, (evaluateMapping R (ms.get i) req).matched = false) ∧
    ((∀ i : Fin ms.length, diagScore (evaluateMapping R (ms.get i) req) = 0) → st = mrInit) ∧
    ((∃ i : Fin ms.length, 0 < diagScore (evaluateMapping R (ms.get i) req)) →
      ∃ j : Fin ms.length,
        0 < diagScore (evaluateMapping R (ms.get j) req) ∧
        st.bestMatch = { evaluateMapping R (ms.get j) req with mappingIdx := some j.val } ∧
        st.bestScore = diagScore (evaluateMapping R (ms.get j) req) ∧
        (∀ i : Fin ms.length, diagScore (evaluateMapping R (ms.get i) req) ≤
          diagScore (evaluateMapping R (ms.get j) req)) ∧
        (∀ i : Fin ms.length, i.val < j.val →
          diagScore (evaluateMapping R (ms.get i) req) <
            diagScore (evaluateMapping R (ms.get j) req))))

theorem get_concat_lt {α : Type} (l : List α) (x : α) (i : Nat) (h : i < l.length)
    (h2 : i < (l ++ [x]).length) : (l ++ [x]).get ⟨i, h2⟩ = l.get ⟨i, h⟩ := by
  simp only [List.get_eq_getElem]
  exact List.getElem_append_left h

theorem get_concat_last {α : Type} (l : List α) (x : α) (h : l.length < (l ++ [x]).length) :
    (l ++ [x]).get ⟨l.length, h⟩ = x := by
  simp only [List.get_eq_getElem]
  exact List.getElem_concat_length l x _ rfl _

theorem length_lt_concat_length {α : Type} (l : List α) (x : α) :
    l.length < (l ++ [x]).length := by simp

theorem fin_val_lt_concat {α : Type} {l : List α} {x : α} (i : Fin l.length) :
    i.val < (l ++ [x]).length := by
  have := i.isLt
  simp only [List.length_append, List.length_cons, List.length_nil]
  omega

theorem fin_concat_cases {α : Type} {l : List α} {x : α} (i : Fin ((l ++ [x]).length)) :
    (∃ h : i.val < l.length, (l ++ [x]).get i = l.get ⟨i.val, h⟩) ∨
      (i.val = l.length ∧ (l ++ [x]).get i = x) := by
  have hi := i.isLt
  have hi2 : i.val < l.length + 1 := by
    simpa using hi
  rcases Nat.lt_or_ge i.val l.length with hlt | hge
  · left
    exact ⟨hlt, get_concat_lt l x i.val hlt i.isLt⟩
  · right
    have hv : i.val = l.length := by omega
    refine ⟨hv, ?_⟩
    have : i = ⟨l.length, length_lt_concat_length l x⟩ := Fin.ext hv
    rw [this, get_concat_last]

theorem MRInv_step (R : String → Option (String → Bool)) (req : ReqInput)
    (l : List Mapping) (x : Mapping) (st : MRState) (h : MRInv R req l st) :
    MRInv R req (l ++ [x]) (mrStep R req st (l.length, x)) := by
  obtain ⟨h1, h2, h3⟩ := h
  have hlast : ((l ++ [x]).get ⟨l.length, length_lt_concat_length l x⟩) = x :=
    get_concat_last l x _
  cases hxm : (evaluateMapping R x req).matched with
  | true =>
    cases hb : st.bestMatched with
    | false =>
      -- first full match ever seen: the new state takes stub x
      obtain ⟨hall, _, _⟩ := h3 hb
      have hstep : mrStep R req st (l.length, x) =
          ⟨{ evaluateMapping R x req with mappingIdx := some l.length },
            specificity x, true⟩ := by
        simp [mrStep, hxm, hb]
      rw [hstep]
      refine ⟨?_, ?_, ?_⟩
      · constructor
        · intro _
          exact ⟨⟨l.length, length_lt_concat_length l x⟩, by rw [hlast]; exact hxm⟩
        · intro _
          rfl
      · intro _
        refine ⟨⟨l.length, length_lt_concat_length l x⟩, ?_, ?_, ?_, ?_, ?_⟩
        · rw [hlast]; exact hxm
        · rw [hlast]
        · rw [hlast]
        · intro i hi
          rcases fin_concat_cases i with ⟨hiv, hget⟩ | ⟨hiv, hget⟩
          · rw [hget] at hi
            rw [hall ⟨i.val, hiv⟩] at hi
            exact Bool.noConfusion hi
          · rw [hget, hlast]
        · intro i hij hi
          have hiv : i.val < l.length := hij
          rcases fin_concat_cases i with ⟨hiv2, hget⟩ | ⟨hiv2, hget⟩
          · rw [hget] at hi
            rw [hall ⟨i.val, hiv2⟩] at hi
            exact Bool.noConfusion hi
          · omega
      · intro hfalse
        exact Bool.noConfusion hfalse
    | true =>
      obtain ⟨j, hjm, hjbm, hjbs, hjmax, hjstrict⟩ := h2 hb
      by_cases hc : specificity x > st.bestScore
      · have hstep : mrStep R req st (l.length, x) =
            ⟨{ evaluateMapping R x req with mappingIdx := some l.length },
              specificity x, true⟩ := by
          simp [mrStep, hxm, hb, hc]
        rw [hstep]
        have hcx : specificity ((l ++ [x]).get ⟨j.val, fin_val_lt_concat j⟩) <
            specificity x := by
          rw [get_concat_lt l x j.val j.isLt]
          rw [hjbs] at hc
          simpa using hc
        refine ⟨?_, ?_, ?_⟩
        · constructor
          · intro _
            exact ⟨⟨l.length, length_lt_concat_length l x⟩, by rw [hlast]; exact hxm⟩
          · intro _
            rfl
        · intro _
          refine ⟨⟨l.length, length_lt_concat_length l x⟩, ?_, ?_, ?_, ?_, ?_⟩
          · rw [hlast]; exact hxm
          · rw [hlast]
          · rw [hlast]
          · intro i hi
            rcases fin_concat_cases i with ⟨hiv, hget⟩ | ⟨hiv, hget⟩
            · rw [hget] at hi ⊢
              rw [hlast]
              have := hjmax ⟨i.val, hiv⟩ hi
              rw [hjbs] at hc
              omega
            · rw [hget, hlast]
          · intro i hij hi
            have hiv : i.val < l.length := hij
            rcases fin_concat_cases i with ⟨hiv2, hget⟩ | ⟨hiv2, hget⟩
            · rw [hget] at hi ⊢
              rw [hlast]
              have := hjmax ⟨i.val, hiv2⟩ hi
              rw [hjbs] at hc
              omega
            · omega
        · intro hfalse
          exact Bool.noConfusion hfalse
      · have hstep : mrStep R req st (l.length, x) = st := by
          simp [mrStep, hxm, hb, hc]
        rw [hstep]
        have hgj : (l ++ [x]).get ⟨j.val, fin_val_lt_concat j⟩ = l.get j := by
          rw [get_concat_lt l x j.val j.isLt]
        refine ⟨?_, ?_, ?_⟩
        · constructor
          · intro _
            exact ⟨⟨j.val, fin_val_lt_concat j⟩, by rw [hgj]; exact hjm⟩
          · intro _
            exact hb
        · intro _
          refine ⟨⟨j.val, fin_val_lt_concat j⟩, ?_, ?_, ?_, ?_, ?_⟩
          · rw [hgj]; exact hjm
          · rw [hgj]; exact hjbm
          · rw [hgj]; exact hjbs
          · intro i hi
            rw [hgj]
            rcases fin_concat_cases i with ⟨hiv, hget⟩ | ⟨hiv, hget⟩
            · rw [hget] at hi ⊢
              exact hjmax ⟨i.val, hiv⟩ hi
            · rw [hget]
              rw [hjbs] at hc
              omega
          · intro i hij hi
            rw [hgj]
            have hiv : i.val < l.length := lt_trans hij j.isLt
            rcases fin_concat_cases i with ⟨hiv2, hget⟩ | ⟨hiv2, hget⟩
            · rw [hget] at hi ⊢
              exact hjstrict ⟨i.val, hiv2⟩ hij hi
            · omega
        · intro hfalse
          rw [hb] at hfalse
          exact Bool.noConfusion hfalse
  | false =>
    cases hb : st.bestMatched with
    | true =>
      obtain ⟨j, hjm, hjbm, hjbs, hjmax, hjstrict⟩ := h2 hb
      have hstep : mrStep R req st (l.length, x) = st := by
        simp [mrStep, hxm, hb]
      rw [hstep]
      have hgj : (l ++ [x]).get ⟨j.val, fin_val_lt_concat j⟩ = l.get j := by
        rw [get_concat_lt l x j.val j.isLt]
      refine ⟨?_, ?_, ?_⟩
      · constructor
        · intro _
          exact ⟨⟨j.val, fin_val_lt_concat j⟩, by rw [hgj]; exact hjm⟩
        · intro _
          exact hb
      · intro _
        refine ⟨⟨j.val, fin_val_lt_concat j⟩, ?_, ?_, ?_, ?_, ?_⟩
        · rw [hgj]; exact hjm
        · rw [hgj]; exact hjbm
        · rw [hgj]; exact hjbs
        · intro i hi
          rw [hgj]
          rcases fin_concat_cases i with ⟨hiv, hget⟩ | ⟨hiv, hget⟩
          · rw [hget] at hi ⊢
            exact hjmax ⟨i.val, hiv⟩ hi
          · rw [hget] at hi
            exact absurd hi (by simp [hxm])
        · intro i hij hi
          rw [hgj]
          have hiv : i.val < l.length := lt_trans hij j.isLt
          rcases fin_concat_cases i with ⟨hiv2, hget⟩ | ⟨hiv2, hget⟩
          · rw [hget] at hi ⊢
            exact hjstrict ⟨i.val, hiv2⟩ hij hi
          · omega
      · intro hfalse
        rw [hb] at hfalse
        exact Bool.noConfusion hfalse
    | false =>
      obtain ⟨hall, hzero, hposex⟩ := h3 hb
      have hallx : ∀ i : Fin ((l ++ [x]).length),
          (evaluateMapping R ((l ++ [x]).get i) req).matched = false := by
        intro i
        rcases fin_concat_cases i with ⟨hiv, hget⟩ | ⟨hiv, hget⟩
        · rw [hget]; exact hall ⟨i.val, hiv⟩
        · rw [hget]; exact hxm
      have hnoex : ¬ ∃ i : Fin ((l ++ [x]).length),
          (evaluateMapping R ((l ++ [x]).get i) req).matched = true := by
        rintro ⟨i, hi⟩
        rw [hallx i] at hi
        exact Bool.noConfusion hi
      by_cases hex : ∃ i : Fin l.length, 0 < diagScore (evaluateMapping R (l.get i) req)
      · obtain ⟨j, hj0, hjbm, hjbs, hjmax, hjstrict⟩ := hposex hex
        have hgj : (l ++ [x]).get ⟨j.val, fin_val_lt_concat j⟩ = l.get j := by
          rw [get_concat_lt l x j.val j.isLt]
        by_cases hd : diagScore (evaluateMapping R x req) > st.bestScore
        · have hstep : mrStep R req st (l.length, x) =
              ⟨{ evaluateMapping R x req with mappingIdx := some l.length },
                diagScore (evaluateMapping R x req), false⟩ := by
            simp [mrStep, hxm, hb, hd]
          rw [hstep]
          rw [hjbs] at hd
          refine ⟨?_, ?_, ?_⟩
          · constructor
            · intro hc
              exact Bool.noConfusion hc
            · intro hcx
              exact absurd hcx hnoex
          · intro hfalse
            exact Bool.noConfusion hfalse
          · intro _
            refine ⟨hallx, ?_, ?_⟩
            · intro hz
              have := hz ⟨l.length, length_lt_concat_length l x⟩
              rw [hlast] at this
              omega
            · intro _
              refine ⟨⟨l.length, length_lt_concat_length l x⟩, ?_, ?_, ?_, ?_, ?_⟩
              · rw [hlast]; omega
              · rw [hlast]
              · rw [hlast]
              · intro i
                rcases fin_concat_cases i with ⟨hiv, hget⟩ | ⟨hiv, hget⟩
                · rw [hget, hlast]
                  have := hjmax ⟨i.val, hiv⟩
                  omega
                · rw [hget, hlast]
              · intro i hij
                have hiv : i.val < l.length := hij
                rcases fin_concat_cases i with ⟨hiv2, hget⟩ | ⟨hiv2, hget⟩
                · rw [hget, hlast]
                  have := hjmax ⟨i.val, hiv2⟩
                  omega
                · omega
        · have hstep : mrStep R req st (l.length, x) = st := by
            simp [mrStep, hxm, hb, hd]
          rw [hstep]
          rw [hjbs] at hd
          refine ⟨?_, ?_, ?_⟩
          · constructor
            · intro hc
              rw [hb] at hc
              exact Bool.noConfusion hc
            · intro hcx
              exact absurd hcx hnoex
          · intro hfalse
            rw [hb] at hfalse
            exact absurd hfalse (by simp)
          · intro _
            refine ⟨hallx, ?_, ?_⟩
            · intro hz
              have := hz ⟨j.val, fin_val_lt_concat j⟩
              rw [hgj] at this
              omega
            · intro _
              refine ⟨⟨j.val, fin_val_lt_concat j⟩, ?_, ?_, ?_, ?_, ?_⟩
              · rw [hgj]; exact hj0
              · rw [hgj]; exact hjbm
              · rw [hgj]; exact hjbs
              · intro i
                rw [hgj]
                rcases fin_concat_cases i with ⟨hiv, hget⟩ | ⟨hiv, hget⟩
                · rw [hget]
                  exact hjmax ⟨i.val, hiv⟩
                · rw [hget]
                  omega
              · intro i hij
                rw [hgj]
                have hiv : i.val < l.length := lt_trans hij j.isLt
                rcases fin_concat_cases i with ⟨hiv2, hget⟩ | ⟨hiv2, hget⟩
                · rw [hget]
                  exact hjstrict ⟨i.val, hiv2⟩ hij
                · omega
      · have hz0 : ∀ i : Fin l.length, diagScore (evaluateMapping R (l.get i) req) = 0 := by
          intro i
          by_contra hne
          exact hex ⟨i, Nat.pos_of_ne_zero hne⟩
        have hst0 : st = mrInit := hzero hz0
        subst hst0
        by_cases hd : diagScore (evaluateMapping R x req) > 0
        · have hstep : mrStep R req mrInit (l.length, x) =
              ⟨{ evaluateMapping R x req with mappingIdx := some l.length },
                diagScore (evaluateMapping R x req), false⟩ := by
            simp [mrStep, hxm, mrInit, hd]
          rw [hstep]
          have hd0 : 0 < diagScore (evaluateMapping R x req) := hd
          refine ⟨?_, ?_, ?_⟩
          · constructor
            · intro hc
              exact Bool.noConfusion hc
            · intro hcx
              exact absurd hcx hnoex
          · intro hfalse
            exact Bool.noConfusion hfalse
          · intro _
            refine ⟨hallx, ?_, ?_⟩
            · intro hz
              have := hz ⟨l.length, length_lt_concat_length l x⟩
              rw [hlast] at this
              omega
            · intro _
              refine ⟨⟨l.length, length_lt_concat_length l x⟩, ?_, ?_, ?_, ?_, ?_⟩
              · rw [hlast]; exact hd0
              · rw [hlast]
              · rw [hlast]
              · intro i
                rcases fin_concat_cases i with ⟨hiv, hget⟩ | ⟨hiv, hget⟩
                · rw [hget, hlast]
                  have := hz0 ⟨i.val, hiv⟩
                  omega
                · rw [hget, hlast]
              · intro i hij
                have hiv : i.val < l.length := hij
                rcases fin_concat_cases i with ⟨hiv2, hget⟩ | ⟨hiv2, hget⟩
                · rw [hget, hlast]
                  have := hz0 ⟨i.val, hiv2⟩
                  omega
                · omega
        · have hstep : mrStep R req mrInit (l.length, x) = mrInit := by
            simp [mrStep, hxm, mrInit, hd]
          rw [hstep]
          have hdx0 : diagScore (evaluateMapping R x req) = 0 := by omega
          refine ⟨?_, ?_, ?_⟩
          · constructor
            · intro hc
              exact Bool.noConfusion hc
            · intro hcx
              exact absurd hcx hnoex
          · intro hfalse
            exact Bool.noConfusion hfalse
          · intro _
            refine ⟨hallx, fun _ => rfl, ?_⟩
            · rintro ⟨i, hipos⟩
              exfalso
              rcases fin_concat_cases i with ⟨hiv, hget⟩ | ⟨hiv, hget⟩
              · rw [hget] at hipos
                have := hz0 ⟨i.val, hiv⟩
                omega
              · rw [hget] at hipos
                omega

theorem mrLoop_invariant (R : String → Option (String → Bool)) (req : ReqInput)
    (ms : List Mapping) : MRInv R req ms (mrLoop R req ms 0 mrInit) := by
  induction ms using List.reverseRecOn with
  | nil =>
    refine ⟨?_, ?_, ?_⟩
    · constructor
      · intro hc
        exact Bool.noConfusion hc
      · rintro ⟨i, _⟩
        exact absurd i.isLt (by simp)
    · intro hc
      exact Bool.noConfusion hc
    · intro _
      refine ⟨fun i => absurd i.isLt (by simp), fun _ => rfl, ?_⟩
      rintro ⟨i, _⟩
      exact absurd i.isLt (by simp)
  | append_singleton l x ih =>
    rw [mrLoop_append]
    have h0 : (0 : Nat) + l.length = l.length := by omega
    rw [h0]
    exact MRInv_step R req l x _ ih

/-- C1: when at least one stub fully matches, `matchRequest` returns the
evaluation of the first stub, in encounter (insertion) order, whose
specificity score — query matcher count + body pattern count + header
matcher count, plus 100 when the exact full-URL field is non-empty — is
maximal among the fully matching stubs, with that stub referenced in the
result. -/
theorem claim_C1_highest_specificity_first_selected
    (R : String → Option (String → Bool)) (ms : List Mapping) (req : ReqInput)
    (hex : ∃ i : Fin ms.length, (evaluateMapping R (ms.get i) req).matched = true) :
    ∃ j : Fin ms.length,
      (evaluateMapping R (ms.get j) req).matched = true ∧
      matchRequest R ms req =
        { evaluateMapping R (ms.get j) req with mappingIdx := some j.val } ∧
      (∀ i : Fin ms.length, (evaluateMapping R (ms.get i) req).matched = true →
        specificity (ms.get i) ≤ specificity (ms.get j)) ∧
      (∀ i : Fin ms.length, i.val < j.val →
        (evaluateMapping R (ms.get i) req).matched = true →
        specificity (ms.get i) < specificity (ms.get j)) := by
  obtain ⟨h1, h2, _⟩ := mrLoop_invariant R req ms
  have hbm : (mrLoop R req ms 0 mrInit).bestMatched = true := h1.mpr hex
  obtain ⟨j, hjm, hjbm, _, hjmax, hjstrict⟩ := h2 hbm
  exact ⟨j, hjm, hjbm, hjmax, hjstrict⟩

/-- The request of the specificity example: all three stubs below match
it. -/
def c1Req : ReqInput :=
  { method := "GET", path := "/w", fullURI := "/w?a=1&b=2"
    queryArgs := [("a", "1"), ("b", "2")], body := ""
    reqHeaders := fun h =>
      if h == "H1" then "v1" else if h == "H2" then "v2" else if h == "H3" then "v3" else "" }

/-- Specificity-0 stub: path match only. -/
def c1StubA : Mapping := mkStub { emptyRequest with method := "GET", urlPath := "/w" }

/-- Specificity-2 stub: path plus two query matchers. -/
def c1StubB : Mapping :=
  mkStub { emptyRequest with
    method := "GET", urlPath := "/w"
    queryParameters := [("a", { equalTo := "1", hasExactly := [] }),
                        ("b", { equalTo := "2", hasExactly := [] })] }

/-- Specificity-5 stub: path plus two query matchers plus three header
matchers. -/
def c1StubC : Mapping :=
  mkStub { emptyRequest with
    method := "GET", urlPath := "/w"
    queryParameters := [("a", { equalTo := "1", hasExactly := [] }),
                        ("b", { equalTo := "2", hasExactly := [] })]
    headers := [("H1", { equalTo := "v1", contains := "" }),
                ("H2", { equalTo := "v2", contains := "" }),
                ("H3", { equalTo := "v3", contains := "" })] }

/-- The stub set of the 0/2/5 specificity example. -/
def c1Stubs : List Mapping := [c1StubA, c1StubB, c1StubC]

/-- Closed witness for C1: among matching stubs of specificity 0, 2 and 5
the score-5 stub (index 2) is selected. -/
theorem claim_C1_highest_specificity_first_selected_witness :
    (∃ i : Fin c1Stubs.length,
        (evaluateMapping oracleNone (c1Stubs.get i) c1Req).matched = true) ∧
      (∃ j : Fin c1Stubs.length,
        (evaluateMapping oracleNone (c1Stubs.get j) c1Req).matched = true ∧
        matchRequest oracleNone c1Stubs c1Req =
          { evaluateMapping oracleNone (c1Stubs.get j) c1Req with mappingIdx := some j.val } ∧
        (∀ i : Fin c1Stubs.length,
          (evaluateMapping oracleNone (c1Stubs.get i) c1Req).matched = true →
          specificity (c1Stubs.get i) ≤ specificity (c1Stubs.get j)) ∧
        (∀ i : Fin c1Stubs.length, i.val < j.val →
          (evaluateMapping oracleNone (c1Stubs.get i) c1Req).matched = true →
          specificity (c1Stubs.get i) < specificity (c1Stubs.get j))) ∧
      (matchRequest oracleNone c1Stubs c1Req).mappingIdx = some 2 ∧
      (matchRequest oracleNone c1Stubs c1Req).matched = true ∧
      specificity c1StubA = 0 ∧ specificity c1StubB = 2 ∧ specificity c1StubC = 5 :=
  ⟨⟨⟨0, by decide⟩, by decide⟩,
    claim_C1_highest_specificity_first_selected oracleNone c1Stubs c1Req
      ⟨⟨0, by decide⟩, by decide⟩,
    by decide, by decide, by decide, by decide, by decide⟩

/-- The no-criterion-matches stub of the C2 counterexample: its method,
URL, query, body and header criteria all fail against `c2Req`. -/
def c2Stub : Mapping :=
  mkStub { emptyRequest with
    method := "POST"
    queryParameters := [("q", { equalTo := "x", hasExactly := [] })]
    bodyPatterns := [{ equalToJson := some "1", ignoreArrayOrder := none
                       ignoreExtraElements := none }]
    headers := [("H", { equalTo := "v", contains := "" })] }

/-- The request of the C2 counterexample. -/
def c2Req : ReqInput := mkReq "GET" "/y" "/y" []

/-- C2 counterexample: when every stub fails every criterion, the
diagnostic scores are all 0 and `matchRequest` selects *no* stub — it
returns the zero result with a nil stub reference — although the claim
prescribes that the first stub with the (vacuously) highest diagnostic
score be selected. -/
theorem claim_C2_highest_diag_counterexample :
    (∀ i : Fin [c2Stub].length,
        (evaluateMapping oracleNone ([c2Stub].get i) c2Req).matched = false) ∧
      diagScore (evaluateMapping oracleNone c2Stub c2Req) = 0 ∧
      matchRequest oracleNone [c2Stub] c2Req = zeroResult ∧
      (matchRequest oracleNone [c2Stub] c2Req).mappingIdx = none ∧
      ¬ matchRequest oracleNone [c2Stub] c2Req =
          { evaluateMapping oracleNone c2Stub c2Req with mappingIdx := some 0 } := by
  refine ⟨?_, by decide, by decide, by decide, by decide⟩
  intro i
  have hlt := i.isLt
  simp only [List.length_cons, List.length_nil] at hlt
  have hv : i.val = 0 := by omega
  have he : i = (⟨0, by decide⟩ : Fin [c2Stub].length) := Fin.ext hv
  rw [he]
  decide

/-- C2 (amended): when no stub fully matches, the result is the
evaluation of the first stub, in encounter order, with the highest
diagnostic score (method 1, URL 2, query 4, body 8, headers 16),
*provided that maximum is positive*; when every stub scores zero (or
there is no stub) no stub is selected and the zero result is returned. -/
theorem claim_C2_highest_diag_near_miss_amended
    (R : String → Option (String → Bool)) (ms : List Mapping) (req : ReqInput)
    (hnone : ∀ i : Fin ms.length, (evaluateMapping R (ms.get i) req).matched = false) :
    ((∀ i : Fin ms.length, diagScore (evaluateMapping R (ms.get i) req) = 0) →
      matchRequest R ms req = zeroResult) ∧
    ((∃ i : Fin ms.length, 0 < diagScore (evaluateMapping R (ms.get i) req)) →
      ∃ j : Fin ms.length,
        0 < diagScore (evaluateMapping R (ms.get j) req) ∧
        matchRequest R ms req =
          { evaluateMapping R (ms.get j) req with mappingIdx := some j.val } ∧
        (∀ i : Fin ms.length, diagScore (evaluateMapping R (ms.get i) req) ≤
          diagScore (evaluateMapping R (ms.get j) req)) ∧
        (∀ i : Fin ms.length, i.val < j.val →
          diagScore (evaluateMapping R (ms.get i) req) <
            diagScore (evaluateMapping R (ms.get j) req))) := by
  obtain ⟨h1, _, h3⟩ := mrLoop_invariant R req ms
  have hbm : (mrLoop R req ms 0 mrInit).bestMatched = false := by
    cases hb : (mrLoop R req ms 0 mrInit).bestMatched
    · rfl
    · obtain ⟨i, hi⟩ := h1.mp hb
      rw [hnone i] at hi
      exact Bool.noConfusion hi
  obtain ⟨_, hzero, hposex⟩ := h3 hbm
  constructor
  · intro hz
    show (mrLoop R req ms 0 mrInit).bestMatch = zeroResult
    rw [hzero hz]
    rfl
  · intro hex
    obtain ⟨j, hj0, hjbm, _, hjmax, hjstrict⟩ := hposex hex
    exact ⟨j, hj0, hjbm, hjmax, hjstrict⟩

/-! Determinism of `matchRequest` (claim C8). Go randomizes map iteration
order between `range` loops, so two invocations on the same stub set are
modelled by two association lists that are permutations of each other in
the matcher maps. -/

/-- The per-parameter outcome of the query loop, as a predicate. -/
def qpPass (args : List (String × String)) (p : String × QueryParamMatcher) : Bool :=
  matchQueryParam (getExpectedValues p.2) ((args.filter fun kv => kv.1 == p.1).map (·.2))

/-- The per-parameter diff record of the query loop, `none` when the
parameter passes. -/
def qpDiffFn (args : List (String × String)) (p : String × QueryParamMatcher) :
    Option String :=
  let expectedValues := getExpectedValues p.2
  let actualValues := (args.filter fun kv => kv.1 == p.1).map (·.2)
  if matchQueryParam expectedValues actualValues then none
  else some (if actualValues.isEmpty then
      "not_present|" ++ p.1 ++ "|" ++ goSliceFmt expectedValues
    else
      "mismatch|" ++ p.1 ++ "|" ++ goSliceFmt expectedValues ++ "|" ++
        ",".intercalate actualValues)

/-- The per-header outcome of the header loop. -/
def hdPass (reqHeaders : String → String) (p : String × HeaderMatcher) : Bool :=
  matchHeader p.2 (reqHeaders p.1)

/-- The per-header diff record, `none` when the header passes. -/
def hdDiffFn (reqHeaders : String → String) (p : String × HeaderMatcher) : Option String :=
  let actualValue := reqHeaders p.1
  if matchHeader p.2 actualValue then none
  else some (if actualValue == "" then
      "not_present|" ++ p.1 ++ "|" ++ p.2.equalTo
    else
      "mismatch|" ++ p.1 ++ "|" ++ p.2.equalTo ++ "|" ++ actualValue)

theorem evalQueryParams_foldl (args : List (String × String))
    (params : List (String × QueryParamMatcher)) :
    ∀ (b : Bool) (ds : List String),
      params.foldl
        (fun acc p =>
          let expectedValues := getExpectedValues p.2
          let actualValues := (args.filter fun kv => kv.1 == p.1).map (·.2)
          if matchQueryParam expectedValues actualValues then acc
          else
            (false,
              acc.2 ++
                [if actualValues.isEmpty then
                    "not_present|" ++ p.1 ++ "|" ++ goSliceFmt expectedValues
                  else
                    "mismatch|" ++ p.1 ++ "|" ++ goSliceFmt expectedValues ++ "|" ++
                      ",".intercalate actualValues]))
        (b, ds) =
      (b && params.all (qpPass args), ds ++ params.filterMap (qpDiffFn args)) := by
  induction params with
  | nil => intro b ds; simp
  | cons p ps ih =>
    intro b ds
    rw [List.foldl_cons, List.all_cons, List.filterMap_cons]
    cases hp : qpPass args p with
    | true =>
      simp only [qpPass] at hp
      simp only [hp, ite_true, if_true]
      rw [ih b ds]
      have hnone : qpDiffFn args p = none := by
        simp only [qpDiffFn, hp, ite_true, if_true]
      rw [hnone]
      simp only [qpPass, hp, Bool.true_and]
    | false =>
      simp only [qpPass] at hp
      simp only [hp, Bool.false_eq_true, ite_false, if_false]
      rw [ih false _]
      have hsome : qpDiffFn args p =
          some (if ((args.filter fun kv => kv.1 == p.1).map (·.2)).isEmpty then
              "not_present|" ++ p.1 ++ "|" ++ goSliceFmt (getExpectedValues p.2)
            else
              "mismatch|" ++ p.1 ++ "|" ++ goSliceFmt (getExpectedValues p.2) ++ "|" ++
                ",".intercalate ((args.filter fun kv => kv.1 == p.1).map (·.2))) := by
        simp only [qpDiffFn, hp, Bool.false_eq_true, ite_false, if_false]
      rw [hsome]
      simp only [qpPass, hp, Bool.false_and, Bool.and_false, List.append_assoc,
        List.singleton_append]

theorem evalQueryParams_eq (params : List (String × QueryParamMatcher))
    (args : List (String × String)) :
    evalQueryParams params args =
      (params.all (qpPass args), params.filterMap (qpDiffFn args)) := by
  unfold evalQueryParams
  rw [evalQueryParams_foldl args params true []]
  simp

theorem evalHeaders_foldl (reqHeaders : String → String)
    (hs : List (String × HeaderMatcher)) :
    ∀ (b : Bool) (ds : List String),
      hs.foldl
        (fun acc p =>
          let actualValue := reqHeaders p.1
          if matchHeader p.2 actualValue then acc
          else
            (false,
              acc.2 ++
                [if actualValue == "" then
                    "not_present|" ++ p.1 ++ "|" ++ p.2.equalTo
                  else
                    "mismatch|" ++ p.1 ++ "|" ++ p.2.equalTo ++ "|" ++ actualValue]))
        (b, ds) =
      (b && hs.all (hdPass reqHeaders), ds ++ hs.filterMap (hdDiffFn reqHeaders)) := by
  induction hs with
  | nil => intro b ds; simp
  | cons p ps ih =>
    intro b ds
    rw [List.foldl_cons, List.all_cons, List.filterMap_cons]
    cases hp : hdPass reqHeaders p with
    | true =>
      simp only [hdPass] at hp
      simp only [hp, ite_true, if_true]
      rw [ih b ds]
      have hnone : hdDiffFn reqHeaders p = none := by
        simp only [hdDiffFn, hp, ite_true, if_true]
      rw [hnone]
      simp only [hdPass, hp, Bool.true_and]
    | false =>
      simp only [hdPass] at hp
      simp only [hp, Bool.false_eq_true, ite_false, if_false]
      rw [ih false _]
      have hsome : hdDiffFn reqHeaders p =
          some (if reqHeaders p.1 == "" then
              "not_present|" ++ p.1 ++ "|" ++ p.2.equalTo
            else
              "mismatch|" ++ p.1 ++ "|" ++ p.2.equalTo ++ "|" ++ reqHeaders p.1) := by
        simp only [hdDiffFn, hp, Bool.false_eq_true, ite_false, if_false]
      rw [hsome]
      simp only [hdPass, hp, Bool.false_and, Bool.and_false, List.append_assoc,
        List.singleton_append]

theorem evalHeaders_eq (hs : List (String × HeaderMatcher)) (reqHeaders : String → String) :
    evalHeaders hs reqHeaders =
      (hs.all (hdPass reqHeaders), hs.filterMap (hdDiffFn reqHeaders)) := by
  unfold evalHeaders
  rw [evalHeaders_foldl reqHeaders hs true []]
  simp

theorem perm_all {α : Type} {l1 l2 : List α} (h : l1.Perm l2) (f : α → Bool) :
    l1.all f = l2.all f := by
  by_cases hall : ∀ x ∈ l1, f x = true
  · rw [List.all_eq_true.mpr hall,
      List.all_eq_true.mpr fun x hx => hall x (h.mem_iff.mpr hx)]
  · have h1 : l1.all f = false := by
      cases hv : l1.all f
      · rfl
      · exact absurd (List.all_eq_true.mp hv) hall
    have h2 : l2.all f = false := by
      cases hv : l2.all f
      · rfl
      · exact absurd (fun x hx => List.all_eq_true.mp hv x (h.mem_iff.mp hx)) hall
    rw [h1, h2]

theorem perm_isEmpty {α : Type} {l1 l2 : List α} (h : l1.Perm l2) :
    l1.isEmpty = l2.isEmpty := by
  cases l1 with
  | nil =>
    cases l2 with
    | nil => rfl
    | cons y ys => exact absurd h.length_eq (by simp)
  | cons x xs =>
    cases l2 with
    | nil => exact absurd h.length_eq (by simp)
    | cons y ys => rfl

/-- Two evaluation results that agree everywhere except that the diff
record lists may be reordered. -/
def ResultEquiv (r1 r2 : MatchResult) : Prop :=
  r1.matched = r2.matched ∧ r1.mappingIdx = r2.mappingIdx ∧ r1.urlMatch = r2.urlMatch ∧
    r1.methodMatch = r2.methodMatch ∧ r1.queryMatch = r2.queryMatch ∧
    r1.bodyMatch = r2.bodyMatch ∧ r1.headerMatch = r2.headerMatch ∧
    r1.queryDiffs.Perm r2.queryDiffs ∧ r1.bodyDiff = r2.bodyDiff ∧
    r1.headerDiffs.Perm r2.headerDiffs

/-- Two mappings that denote the same Go value: all matcher fields equal,
with the map-backed matcher collections equal as maps — i.e. permuted as
association lists. -/
def MappingEquiv (m1 m2 : Mapping) : Prop :=
  m1.request.url = m2.request.url ∧ m1.request.urlPath = m2.request.urlPath ∧
    m1.request.urlPattern = m2.request.urlPattern ∧
    m1.request.method = m2.request.method ∧
    m1.request.queryParameters.Perm m2.request.queryParameters ∧
    m1.request.bodyPatterns = m2.request.bodyPatterns ∧
    m1.request.headers.Perm m2.request.headers

theorem evaluateMapping_equiv (R : String → Option (String → Bool)) (req : ReqInput)
    {m1 m2 : Mapping} (h : MappingEquiv m1 m2) :
    ResultEquiv (evaluateMapping R m1 req) (evaluateMapping R m2 req) := by
  obtain ⟨hurl, hpath, hpat, hmeth, hqp, hbp, hhd⟩ := h
  have hqm : (if m1.request.queryParameters.isEmpty then (true, ([] : List String))
      else evalQueryParams m1.request.queryParameters req.queryArgs).1 =
      (if m2.request.queryParameters.isEmpty then (true, ([] : List String))
      else evalQueryParams m2.request.queryParameters req.queryArgs).1 ∧
      (if m1.request.queryParameters.isEmpty then (true, ([] : List String))
      else evalQueryParams m1.request.queryParameters req.queryArgs).2.Perm
      (if m2.request.queryParameters.isEmpty then (true, ([] : List String))
      else evalQueryParams m2.request.queryParameters req.queryArgs).2 := by
    rw [perm_isEmpty hqp]
    by_cases he : m2.request.queryParameters.isEmpty
    · simp [he]
    · simp only [he, if_false, ite_false, evalQueryParams_eq]
      exact ⟨perm_all hqp _, hqp.filterMap _⟩
  have hhm : (if m1.request.headers.isEmpty then (true, ([] : List String))
      else evalHeaders m1.request.headers req.reqHeaders).1 =
      (if m2.request.headers.isEmpty then (true, ([] : List String))
      else evalHeaders m2.request.headers req.reqHeaders).1 ∧
      (if m1.request.headers.isEmpty then (true, ([] : List String))
      else evalHeaders m1.request.headers req.reqHeaders).2.Perm
      (if m2.request.headers.isEmpty then (true, ([] : List String))
      else evalHeaders m2.request.headers req.reqHeaders).2 := by
    rw [perm_isEmpty hhd]
    by_cases he : m2.request.headers.isEmpty
    · simp [he]
    · simp only [he, if_false, ite_false, evalHeaders_eq]
      exact ⟨perm_all hhd _, hhd.filterMap _⟩
  simp only [evaluateMapping, hurl, hpath, hpat, hmeth, hbp]
  exact ⟨by rw [hqm.1, hhm.1], rfl, rfl, rfl, hqm.1, rfl, hhm.1, hqm.2, rfl, hhm.2⟩

/-- Loop states that agree up to diff-record order. -/
def StateEquiv (s1 s2 : MRState) : Prop :=
  ResultEquiv s1.bestMatch s2.bestMatch ∧ s1.bestScore = s2.bestScore ∧
    s1.bestMatched = s2.bestMatched

theorem mrStep_equiv (R : String → Option (String → Bool)) (req : ReqInput)
    {s1 s2 : MRState} {i : Nat} {m1 m2 : Mapping}
    (hs : StateEquiv s1 s2) (hm : MappingEquiv m1 m2) :
    StateEquiv (mrStep R req s1 (i, m1)) (mrStep R req s2 (i, m2)) := by
  obtain ⟨hr, hsc, hbm⟩ := hs
  have he := evaluateMapping_equiv R req hm
  obtain ⟨hema, heidx, heurl, hemeth, heq, heb, heh, heqd, hebd, hehd⟩ := he
  have hspec : specificity m1 = specificity m2 := by
    obtain ⟨hurl, _, _, _, hqp, hbp, hhd⟩ := hm
    simp only [specificity, hqp.length_eq, hbp, hhd.length_eq, hurl]
  have hdiag : diagScore (evaluateMapping R m1 req) = diagScore (evaluateMapping R m2 req) := by
    simp only [diagScore, hema, heurl, hemeth, heq, heb, heh]
  simp only [mrStep]
  cases hm1 : (evaluateMapping R m1 req).matched with
  | true =>
    have hm2 : (evaluateMapping R m2 req).matched = true := by rw [← hema]; exact hm1
    simp only [hm1, hm2, ite_true, if_true]
    rw [hbm, hsc, hspec]
    by_cases hc : (!s2.bestMatched || decide (specificity m2 > s2.bestScore)) = true
    · rw [if_pos hc, if_pos hc]
      exact ⟨⟨rfl, rfl, heurl, hemeth, heq, heb, heh, heqd, hebd, hehd⟩, rfl, rfl⟩
    · rw [if_neg hc, if_neg hc]
      exact ⟨hr, hsc, hbm⟩
  | false =>
    have hm2 : (evaluateMapping R m2 req).matched = false := by rw [← hema]; exact hm1
    simp only [hm1, hm2, Bool.false_eq_true, ite_false, if_false]
    rw [hbm]
    by_cases hbv : (!s2.bestMatched) = true
    · rw [if_pos hbv, if_pos hbv]
      rw [hsc, hdiag]
      by_cases hd : diagScore (evaluateMapping R m2 req) > s2.bestScore
      · rw [if_pos hd, if_pos hd]
        exact ⟨⟨rfl, rfl, heurl, hemeth, heq, heb, heh, heqd, hebd, hehd⟩, rfl, rfl⟩
      · rw [if_neg hd, if_neg hd]
        exact ⟨hr, hsc, hbm⟩
    · rw [if_neg hbv, if_neg hbv]
      exact ⟨hr, hsc, hbm⟩

theorem mrLoop_equiv (R : String → Option (String → Bool)) (req : ReqInput)
    {ms1 ms2 : List Mapping} (h : List.Forall₂ MappingEquiv ms1 ms2) :
    ∀ (i : Nat) (s1 s2 : MRState), StateEquiv s1 s2 →
      StateEquiv (mrLoop R req ms1 i s1) (mrLoop R req ms2 i s2) := by
  induction h with
  | nil => exact fun i s1 s2 hs => hs
  | cons hm _ ih =>
    intro i s1 s2 hs
    exact ih (i + 1) _ _ (mrStep_equiv R req hs hm)

/-- C8 (amended): `matchRequest` is deterministic in everything except
the order of the per-map diff records: for two invocations whose stub
lists denote the same Go values (the map-backed matcher collections given
in any iteration order), the matched flag, the selected stub reference,
every per-criterion flag and the body diff coincide, and the query and
header diff record lists coincide up to permutation. -/
theorem claim_C8_deterministic_up_to_diff_order
    (R : String → Option (String → Bool)) (req : ReqInput) (ms1 ms2 : List Mapping)
    (h : List.Forall₂ MappingEquiv ms1 ms2) :
    ResultEquiv (matchRequest R ms1 req) (matchRequest R ms2 req) := by
  have hinit : StateEquiv mrInit mrInit :=
    ⟨⟨rfl, rfl, rfl, rfl, rfl, rfl, rfl, List.Perm.refl _, rfl, List.Perm.refl _⟩, rfl, rfl⟩
  exact (mrLoop_equiv R req h 0 mrInit mrInit hinit).1

/-- The shared matcher fields of the C8 counterexample's stub. -/
def c8Base : Request := { emptyRequest with method := "GET", urlPath := "/w" }

/-- The counterexample stub with query matchers iterated `a` then `b`. -/
def c8Stub1 : Mapping :=
  mkStub { c8Base with
    queryParameters := [("a", { equalTo := "1", hasExactly := [] }),
                        ("b", { equalTo := "2", hasExactly := [] })] }

/-- The same Go stub with its query-matcher map iterated `b` then `a`. -/
def c8Stub2 : Mapping :=
  mkStub { c8Base with
    queryParameters := [("b", { equalTo := "2", hasExactly := [] }),
                        ("a", { equalTo := "1", hasExactly := [] })] }

/-- The request of the C8 counterexample (neither parameter present, so
both matchers fail and two diff records are emitted in iteration order). -/
def c8Req : ReqInput := mkReq "GET" "/w" "/w" []

/-- C8 counterexample: two invocations of `matchRequest` on the same stub
(the two lists are permutations, i.e. the same Go map) produce different
results — the query diff records come out in different orders — so the
result is not identical including diff order, as the claim states. -/
theorem claim_C8_determinism_counterexample :
    c8Stub1.request.queryParameters.Perm c8Stub2.request.queryParameters ∧
      MappingEquiv c8Stub1 c8Stub2 ∧
      (matchRequest oracleNone [c8Stub1] c8Req).queryDiffs =
        ["not_present|a|[1]", "not_present|b|[2]"] ∧
      (matchRequest oracleNone [c8Stub2] c8Req).queryDiffs =
        ["not_present|b|[2]", "not_present|a|[1]"] ∧
      matchRequest oracleNone [c8Stub1] c8Req ≠ matchRequest oracleNone [c8Stub2] c8Req ∧
      (matchRequest oracleNone [c8Stub1] c8Req).queryDiffs ≠
        (matchRequest oracleNone [c8Stub2] c8Req).queryDiffs := by
  refine ⟨List.Perm.swap _ _ _, ⟨rfl, rfl, rfl, rfl, List.Perm.swap _ _ _, rfl,
    List.Perm.refl _⟩, by decide, by decide, by decide, by decide⟩

/-- Closed witness for amended C8 at the counterexample inputs: the two
iteration orders still agree on everything but diff order. -/
theorem claim_C8_deterministic_up_to_diff_order_witness :
    List.Forall₂ MappingEquiv [c8Stub1] [c8Stub2] ∧
      ResultEquiv (matchRequest oracleNone [c8Stub1] c8Req)
        (matchRequest oracleNone [c8Stub2] c8Req) ∧
      (matchRequest oracleNone [c8Stub1] c8Req).mappingIdx =
        (matchRequest oracleNone [c8Stub2] c8Req).mappingIdx :=
  ⟨List.Forall₂.cons ⟨rfl, rfl, rfl, rfl, List.Perm.swap _ _ _, rfl, List.Perm.refl _⟩
      List.Forall₂.nil,
    claim_C8_deterministic_up_to_diff_order oracleNone c8Req [c8Stub1] [c8Stub2]
      (List.Forall₂.cons ⟨rfl, rfl, rfl, rfl, List.Perm.swap _ _ _, rfl, List.Perm.refl _⟩
        List.Forall₂.nil),
    by decide⟩

/-! The record-mode pipeline (`internal/common` record package, with the
snapshot filter of `record.go` / `handleSnapshot`). -/

/-- One captured request/response pair (`RecordedExchange`). -/
structure RecordedExchange where
  method : String
  url : String
  reqBody : String
  status : Int
  respHeaders : List (String × List String)
  respBody : String
deriving DecidableEq, Inhabited

/-- The legacy negative-lookahead shape recognized by
`negativeLookaheadRe`, the anchored pattern `((?!INNER).)*` with the
leading parenthesis optional: such a string decomposes uniquely as an
optional `(`, the literal `(?!`, a non-empty INNER free of newlines
(`.+?` — the anchors make laziness irrelevant), and the literal four-byte
suffix `).)*`. Returns the captured INNER. -/
def legacyInner (p : String) : Option String :=
  let core : Option (List Char) :=
    match p.toList with
    | '(' :: '(' :: '?' :: '!' :: rest => some rest
    | '(' :: '?' :: '!' :: rest => some rest
    | _ => none
  match core with
  | none => none
  | some rest =>
    if 5 ≤ rest.length then
      let inner := rest.take (rest.length - 4)
      let tail := rest.drop (rest.length - 4)
      if tail = [')', '.', ')', '*'] ∧ inner.all (fun c => c ≠ '\n') then
        some (String.mk inner)
      else none
    else none

/-- Model of `compileURLMatcher` (record.go): try the regexp engine (the
oracle `R`); on failure, try the legacy negative-lookahead shape, whose
inner pattern must itself compile, giving "URI does not contain a match
of INNER"; otherwise warn and match everything. -/
def compileURLMatcher (R : String → Option (String → Bool)) (pattern : String) :
    String → Bool :=
  match R pattern with
  | some f => fun url => f url
  | none =>
    match legacyInner pattern with
    | some inner =>
      match R inner with
      | some g => fun url => !(g url)
      | none => fun _ => true
    | none => fun _ => true

/-- The drain step of `handleSnapshot` (record.go): with a non-empty
`urlPattern` filter, split the recorded exchanges into the drained ones
(matcher true, handed to conversion) and the remaining ones (kept for
future snapshots); the loop appending to `filtered`/`remaining` is the
filter by the matcher and its complement. With an empty filter everything
drains. -/
def snapshotPartition (R : String → Option (String → Bool)) (pattern : String)
    (exs : List RecordedExchange) : List RecordedExchange × List RecordedExchange :=
  if pattern ≠ "" then
    (exs.filter fun ex => compileURLMatcher R pattern ex.url,
      exs.filter fun ex => !(compileURLMatcher R pattern ex.url))
  else (exs, [])

/-- C9: for every snapshot URL-pattern filter — if it compiles, the drain
removes exactly the exchanges whose raw URI it matches and retains the
rest; if it does not compile but has the legacy shape `((?!X).)*` with
`X` compiling, exactly the exchanges whose URI does *not* contain a match
of `X` drain; any other non-compiling pattern (legacy-shaped with a
non-compiling inner included) drains every exchange rather than rejecting
the snapshot. -/
theorem claim_C9_snapshot_filter_drain
    (R : String → Option (String → Bool)) (pattern : String)
    (exs : List RecordedExchange) (hne : pattern ≠ "") :
    (∀ f, R pattern = some f →
      snapshotPartition R pattern exs =
        (exs.filter fun ex => f ex.url, exs.filter fun ex => !(f ex.url))) ∧
    (∀ inner g, R pattern = none → legacyInner pattern = some inner → R inner = some g →
      snapshotPartition R pattern exs =
        (exs.filter fun ex => !(g ex.url), exs.filter fun ex => g ex.url)) ∧
    (R pattern = none → legacyInner pattern = none →
      snapshotPartition R pattern exs = (exs, [])) ∧
    (∀ inner, R pattern = none → legacyInner pattern = some inner → R inner = none →
      snapshotPartition R pattern exs = (exs, [])) := by
  refine ⟨?_, ?_, ?_, ?_⟩
  · intro f hf
    simp only [snapshotPartition, compileURLMatcher, hf]
    rw [if_pos hne]
  · intro inner g hp hleg hg
    simp only [snapshotPartition, compileURLMatcher, hp, hleg, hg, Bool.not_not]
    rw [if_pos hne]
  · intro hp hleg
    simp only [snapshotPartition, compileURLMatcher, hp, hleg]
    rw [if_pos hne]
    simp
  · intro inner hp hleg hg
    simp only [snapshotPartition, compileURLMatcher, hp, hleg, hg]
    rw [if_pos hne]
    simp

/-- An oracle for the C9 witness: only the pattern `x` compiles, to the
substring-containment matcher Go's unanchored `MatchString` gives it. -/
def c9Oracle : String → Option (String → Bool) :=
  fun p => if p = "x" then some (fun u => strContains u "x") else none

/-- A recorded exchange whose URI contains `x`. -/
def c9ExA : RecordedExchange :=
  { method := "GET", url := "/ax", reqBody := "", status := 200
    respHeaders := [], respBody := "" }

/-- A recorded exchange whose URI does not contain `x`. -/
def c9ExB : RecordedExchange :=
  { method := "GET", url := "/b", reqBody := "", status := 200
    respHeaders := [], respBody := "" }

/-- Closed witness for C9: the legacy filter `((?!x).)*` does not compile
under the oracle but decomposes with inner pattern `x`, so the exchange
whose URI avoids `x` drains and the one containing `x` remains. -/
theorem claim_C9_snapshot_filter_drain_witness :
    ("((?!x).)*" ≠ "") ∧
      ((∀ f, c9Oracle "((?!x).)*" = some f →
        snapshotPartition c9Oracle "((?!x).)*" [c9ExA, c9ExB] =
          ([c9ExA, c9ExB].filter fun ex => f ex.url,
            [c9ExA, c9ExB].filter fun ex => !(f ex.url))) ∧
      (∀ inner g, c9Oracle "((?!x).)*" = none → legacyInner "((?!x).)*" = some inner →
        c9Oracle inner = some g →
        snapshotPartition c9Oracle "((?!x).)*" [c9ExA, c9ExB] =
          ([c9ExA, c9ExB].filter fun ex => !(g ex.url),
            [c9ExA, c9ExB].filter fun ex => g ex.url)) ∧
      (c9Oracle "((?!x).)*" = none → legacyInner "((?!x).)*" = none →
        snapshotPartition c9Oracle "((?!x).)*" [c9ExA, c9ExB] = ([c9ExA, c9ExB], [])) ∧
      (∀ inner, c9Oracle "((?!x).)*" = none → legacyInner "((?!x).)*" = some inner →
        c9Oracle inner = none →
        snapshotPartition c9Oracle "((?!x).)*" [c9ExA, c9ExB] = ([c9ExA, c9ExB], []))) ∧
      legacyInner "((?!x).)*" = some "x" ∧
      snapshotPartition c9Oracle "((?!x).)*" [c9ExA, c9ExB] = ([c9ExB], [c9ExA]) :=
  ⟨by decide,
    claim_C9_snapshot_filter_drain c9Oracle "((?!x).)*" [c9ExA, c9ExB] (by decide),
    by decide, by decide⟩

/-! Per-exchange conversion (`exchangeToMapping` of the internal/common
record package) and its helpers. -/

/-- Go `strings.Split` on a one-byte separator. -/
def splitOnChar (sep : Char) : List Char → List (List Char)
  | [] => [[]]
  | c :: cs =>
    let r := splitOnChar sep cs
    if c = sep then [] :: r
    else
      match r with
      | h :: t => (c :: h) :: t
      | [] => [[c]]

/-- Go `strings.SplitN(s, "=", 2)`: the part before the first `=` and,
when one exists, the part after it. -/
def splitFirstEq : List Char → List Char × Option (List Char)
  | [] => ([], none)
  | c :: rest =>
    if c = '=' then ([], some rest)
    else
      let (a, b) := splitFirstEq rest
      (c :: a, b)

/-- Splitting a raw URI at its first `?` (`strings.IndexByte(url, '?')`):
the path, and the query string when a `?` is present. -/
def splitAtQM : List Char → List Char × Option (List Char)
  | [] => ([], none)
  | c :: rest =>
    if c = '?' then ([], some rest)
    else
      let (a, b) := splitAtQM rest
      (c :: a, b)

/-- Go `url.QueryUnescape`'s scan: `+` becomes a space, `%XY` with two
hex digits becomes the byte `0xXY`, a malformed escape is an error.
Decoded bytes are modelled as codepoints: multi-byte UTF-8 escape
sequences, which Go would reassemble into one character, come out as one
codepoint per byte here; no claim exercises non-ASCII escapes. -/
def queryUnescape : List Char → Option (List Char)
  | [] => some []
  | '%' :: a :: b :: rest => do
    let va ← hexVal a
    let vb ← hexVal b
    let tail ← queryUnescape rest
    pure (Char.ofNat (va * 16 + vb) :: tail)
  | '%' :: _ => none
  | '+' :: rest => (queryUnescape rest).map (' ' :: ·)
  | c :: rest => (queryUnescape rest).map (c :: ·)

/-- Model of `urlDecode` (record package): percent-decoding, the original
string on error. -/
def urlDecode (s : String) : String :=
  match queryUnescape s.toList with
  | some cs => String.mk cs
  | none => s

/-- Appending one value under a key in the ordered multi-map Go builds
with `params[key] = append(params[key], val)` plus its `paramOrder`
slice. -/
def addParam (key val : String) : List (String × List String) → List (String × List String)
  | [] => [(key, [val])]
  | (k, vs) :: rest =>
    if k = key then (k, vs ++ [val]) :: rest
    else (k, vs) :: addParam key val rest

/-- Model of `parseQueryParams` (record package): split the raw query
string on `&`, split each part at its first `=`, percent-decode both
sides, group values per key in first-seen key order, and emit one
`hasExactly` matcher per key. -/
def parseQueryParams (qs : String) : List (String × QueryParamMatcher) :=
  let parts := splitOnChar '&' qs.toList
  let params := parts.foldl
    (fun acc part =>
      let (kcs, vcs) := splitFirstEq part
      let key := urlDecode (String.mk kcs)
      let val := match vcs with
        | some v => urlDecode (String.mk v)
        | none => ""
      addParam key val acc)
    []
  params.map fun kv =>
    (kv.1, { equalTo := "", hasExactly := kv.2.map fun v => EqualMatcher.mk v })

/-- The part of a raw URI before its first `?` (also Go
`strings.Split`-free prefix used by `generateMappingName`). -/
def takeBeforeQM : List Char → List Char
  | [] => []
  | c :: rest => if c = '?' then [] else c :: takeBeforeQM rest

/-- Go `strings.TrimPrefix(path, "/")`: one leading slash removed. -/
def dropOneSlash : List Char → List Char
  | '/' :: rest => rest
  | cs => cs

/-- Removal of every occurrence of a non-empty pattern, Go
`strings.ReplaceAll(s, pat, "")` (fuelled to stay kernel-evaluable). -/
def removeSeqF : Nat → List Char → List Char → List Char
  | 0, _, cs => cs
  | fuel + 1, pat, cs =>
    match cs with
    | [] => []
    | c :: rest =>
      if pat ≠ [] ∧ pat.isPrefixOf (c :: rest) then
        removeSeqF fuel pat ((c :: rest).drop pat.length)
      else c :: removeSeqF fuel pat rest

/-- `strings.ReplaceAll(s, pat, "")`. -/
def removeSeq (pat cs : List Char) : List Char := removeSeqF (cs.length + 1) pat cs

/-- Model of `generateMappingName` (record package): the path part of the
URL, leading slash dropped, `/` replaced by `_`, `%3A`/`%3a` removed,
lowercased (ASCII model of `strings.ToLower`; these names are ASCII). -/
def generateMappingName (rawURL : String) : String :=
  let path := takeBeforeQM rawURL.toList
  let n1 := dropOneSlash path
  let n2 := n1.map fun c => if c = '/' then '_' else c
  let n3 := removeSeq "%3A".toList n2
  let n4 := removeSeq "%3a".toList n3
  String.mk (n4.map Char.toLower)

/-- The abbreviations WireMock (and `normalizeHeaderName`) keeps fully
upper-case. -/
def upperAbbrevs : List (List Char) :=
  ["XSS".toList, "HTTP".toList, "ID".toList, "DNS".toList, "CSP".toList,
   "URI".toList, "URL".toList, "SSL".toList, "TLS".toList, "IP".toList]

/-- Title-casing of one `-`-separated part of a header name, with the
abbreviation allow-list kept fully upper-case. -/
def titleCasePart (cs : List Char) : List Char :=
  match cs with
  | [] => []
  | c :: rest =>
    let upper := (c :: rest).map Char.toUpper
    if upper ∈ upperAbbrevs then upper
    else Char.toUpper c :: rest.map Char.toLower

/-- Model of `normalizeHeaderName` (record package). -/
def normalizeHeaderName (name : String) : String :=
  String.mk (List.intercalate ['-'] ((splitOnChar '-' name.toList).map titleCasePart))

/-- Whitespace trimmed by `strings.TrimSpace` (ASCII subset; header
media types are ASCII). -/
def isSpaceGo (c : Char) : Bool :=
  c = ' ' || c = '\t' || c = '\n' || c = '\r' || c = '\x0b' || c = '\x0c'

/-- Go `strings.TrimSpace`. -/
def trimSpace (cs : List Char) : List Char :=
  ((cs.dropWhile isSpaceGo).reverse.dropWhile isSpaceGo).reverse

/-- The prefix of a media type before its first `;`
(`strings.SplitN(v, ";", 2)[0]`). -/
def takeBeforeSemi : List Char → List Char
  | [] => []
  | c :: rest => if c = ';' then [] else c :: takeBeforeSemi rest

/-- Model of `isJSONContentType` (record package): some `Content-Type`
value (name compared case-insensitively), parameters stripped and
whitespace trimmed, equals one of the configured media types
case-insensitively. -/
def isJSONContentType (headers : List (String × List String)) (jsonTypes : List String) :
    Bool :=
  headers.any fun kv =>
    if eqFold kv.1 "Content-Type" then
      kv.2.any fun v =>
        let mediaType := String.mk (trimSpace (takeBeforeSemi v.toList))
        jsonTypes.any fun jt => eqFold mediaType jt
    else false

/-- The whitespace-stripping scan of Go `json.Compact`: drop JSON
whitespace outside string literals, tracking escapes inside them. -/
def compactChars : Bool → Bool → List Char → List Char
  | _, _, [] => []
  | true, true, c :: rest => c :: compactChars true false rest
  | true, false, c :: rest =>
    if c = '\\' then c :: compactChars true true rest
    else if c = '"' then c :: compactChars false false rest
    else c :: compactChars true false rest
  | false, _, c :: rest =>
    if isWsC c then compactChars false false rest
    else if c = '"' then c :: compactChars true false rest
    else c :: compactChars false false rest

/-- Model of `compactJSON` (record package): `json.Compact` validates the
input (an error leaves the body pattern out) and strips whitespace
outside strings; validity is the same JSON grammar the decoder accepts. -/
def compactJSON (s : String) : Option String :=
  match goUnmarshal s with
  | none => none
  | some _ => some (String.mk (compactChars false false s.toList))

/-- Writing one header value into the `map[string]any` Go builds
(`headers[normalizedKey] = v`): overwrite the key if present, else add. -/
def setAssoc (k : String) (v : JsonVal) : List (String × JsonVal) → List (String × JsonVal)
  | [] => [(k, v)]
  | (k', v') :: rest =>
    if k' = k then (k, v) :: rest
    else (k', v') :: setAssoc k v rest

/-- Dropping trailing JSON whitespace. -/
def trimWsEnds (s : String) : String :=
  String.mk ((skipWsL s.toList).reverse.dropWhile isWsC).reverse

/-- Model of `exchangeToMapping` (internal/common record package): split
the raw URI; a non-empty query string gives `urlPath` + `hasExactly`
query matchers, otherwise the exact `url` field; a non-empty
JSON-parseable request body becomes one double-encoded `equalToJson`
pattern (normalized per the two flags: key order preserved via
`json.Compact`, or re-marshalled, with optional array sorting) with both
ignore flags explicitly false; response headers are filtered (X-GDC
prefix, Date, transport headers) and title-cased; the response body is
structured JSON (raw text when preserving key order, a decoded and
optionally array-sorted value otherwise) when the Content-Type is
configured as JSON, else an opaque string. -/
def exchangeToMapping (jsonContentTypes : List String)
    (preserveKeyOrder sortArrayMembers : Bool) (ex : RecordedExchange) : Mapping :=
  let (pathCs, qsOpt) := splitAtQM ex.url.toList
  let rawPath := String.mk pathCs
  let name := generateMappingName ex.url
  let req : Request :=
    match qsOpt with
    | some qcs =>
      if qcs ≠ [] then
        let qp := parseQueryParams (String.mk qcs)
        { emptyRequest with
          method := ex.method, urlPath := rawPath
          queryParameters := if qp.length > 0 then qp else [] }
      else { emptyRequest with method := ex.method, url := rawPath }
    | none => { emptyRequest with method := ex.method, url := rawPath }
  let bodyBytes : Option String :=
    if ex.reqBody ≠ "" then
      if preserveKeyOrder then
        if sortArrayMembers then
          match goUnmarshal ex.reqBody with
          | some parsed => some (marshal (sortArrays parsed))
          | none => none
        else compactJSON ex.reqBody
      else
        match goUnmarshal ex.reqBody with
        | some parsed =>
          some (marshal (if sortArrayMembers then sortArrays parsed else parsed))
        | none => none
    else none
  let req : Request :=
    match bodyBytes with
    | some bs =>
      { req with
        bodyPatterns := [{ equalToJson := some (quoteStr bs)
                           ignoreArrayOrder := some false
                           ignoreExtraElements := some false }] }
    | none => req
  let headers : List (String × JsonVal) :=
    ex.respHeaders.foldl
      (fun acc kv =>
        let upperKey := String.mk (kv.1.toList.map Char.toUpper)
        if ("X-GDC".toList.isPrefixOf upperKey.toList) || upperKey = "DATE" ||
            upperKey = "CONTENT-ENCODING" || upperKey = "CONTENT-LENGTH" ||
            upperKey = "CONNECTION" || upperKey = "TRANSFER-ENCODING" then acc
        else
          let normalizedKey := normalizeHeaderName kv.1
          if kv.2.length = 1 then setAssoc normalizedKey (.str (kv.2.headD "")) acc
          else setAssoc normalizedKey (.arr (kv.2.map .str)) acc)
      []
  let resp : Response :=
    if isJSONContentType ex.respHeaders jsonContentTypes then
      if preserveKeyOrder ∧ ¬sortArrayMembers then
        match goUnmarshal ex.respBody with
        | some _ =>
          { status := ex.status, body := "", headers := headers
            jsonBody := some (.raw (trimWsEnds ex.respBody)) }
        | none =>
          { status := ex.status, body := ex.respBody, headers := headers, jsonBody := none }
      else
        match goUnmarshal ex.respBody with
        | some parsed =>
          { status := ex.status, body := "", headers := headers
            jsonBody := some (.val (if sortArrayMembers then sortArrays parsed else parsed)) }
        | none =>
          { status := ex.status, body := ex.respBody, headers := headers, jsonBody := none }
    else { status := ex.status, body := ex.respBody, headers := headers, jsonBody := none }
  { name := name, scenarioName := "", requiredScenarioState := "", newScenarioState := ""
    request := req, response := resp }

/-- A near-miss stub matching the method only among the scoring criteria
that differ (diagnostic score 13). -/
def c2wStub0 : Mapping :=
  mkStub { emptyRequest with
    method := "GET", urlPath := "/z"
    headers := [("H", { equalTo := "v", contains := "" })] }

/-- A near-miss stub matching method and URL (diagnostic score 15). -/
def c2wStub1 : Mapping :=
  mkStub { emptyRequest with
    method := "GET", urlPath := "/y"
    headers := [("H", { equalTo := "v", contains := "" })] }

/-- The near-miss stub set of the amended-C2 witness. -/
def c2wStubs : List Mapping := [c2wStub0, c2wStub1]

/-- Closed witness for amended C2: with near-miss scores 13 and 15, the
score-15 stub (index 1) is selected as the diagnostics source. -/
theorem claim_C2_highest_diag_near_miss_amended_witness :
    (∀ i : Fin c2wStubs.length,
        (evaluateMapping oracleNone (c2wStubs.get i) c2Req).matched = false) ∧
      (((∀ i : Fin c2wStubs.length,
            diagScore (evaluateMapping oracleNone (c2wStubs.get i) c2Req) = 0) →
          matchRequest oracleNone c2wStubs c2Req = zeroResult) ∧
        ((∃ i : Fin c2wStubs.length,
            0 < diagScore (evaluateMapping oracleNone (c2wStubs.get i) c2Req)) →
          ∃ j : Fin c2wStubs.length,
            0 < diagScore (evaluateMapping oracleNone (c2wStubs.get j) c2Req) ∧
            matchRequest oracleNone c2wStubs c2Req =
              { evaluateMapping oracleNone (c2wStubs.get j) c2Req with
                  mappingIdx := some j.val } ∧
            (∀ i : Fin c2wStubs.length,
              diagScore (evaluateMapping oracleNone (c2wStubs.get i) c2Req) ≤
                diagScore (evaluateMapping oracleNone (c2wStubs.get j) c2Req)) ∧
            (∀ i : Fin c2wStubs.length, i.val < j.val →
              diagScore (evaluateMapping oracleNone (c2wStubs.get i) c2Req) <
                diagScore (evaluateMapping oracleNone (c2wStubs.get j) c2Req)))) ∧
      (matchRequest oracleNone c2wStubs c2Req).mappingIdx = some 1 ∧
      (matchRequest oracleNone c2wStubs c2Req).matched = false :=
  ⟨by decide,
    claim_C2_highest_diag_near_miss_amended oracleNone c2wStubs c2Req (by decide),
    by decide, by decide⟩

/-! Deduplication keys (`deduplicationKey`): Go serializes the
query-parameter map and the body-pattern slice with `json.Marshal`,
which sorts map keys byte-wise and honours the struct tags
(`omitempty`, fields in declaration order). -/

/-- Comma-joining of already-serialized JSON members. -/
def joinComma : List String → String
  | [] => ""
  | [s] => s
  | s :: rest => s ++ "," ++ joinComma rest

/-- `json.Marshal` of a `types.EqualMatcher` (single field `equalTo`,
no `omitempty`). -/
def marshalEqualMatcher (e : EqualMatcher) : String :=
  "\x7b\"equalTo\":" ++ quoteStr e.equalTo ++ "\x7d"

/-- `json.Marshal` of a `types.QueryParamMatcher` (fields `equalTo` and
`hasExactly`, both `omitempty`). -/
def marshalQPMatcher (m : QueryParamMatcher) : String :=
  let fs :=
    (if m.equalTo ≠ "" then ["\"equalTo\":" ++ quoteStr m.equalTo] else []) ++
    (if m.hasExactly ≠ [] then
      ["\"hasExactly\":[" ++ joinComma (m.hasExactly.map marshalEqualMatcher) ++ "]"]
     else [])
  "\x7b" ++ joinComma fs ++ "\x7d"

/-- The key order `json.Marshal` uses for a Go map: byte-wise `<` on the
keys (as the stable-sort-compatible `≤`). -/
def qpKeyLe (a b : String × QueryParamMatcher) : Prop := strLeP a.1 b.1

instance : DecidableRel qpKeyLe := fun a b => inferInstanceAs (Decidable (strLeP a.1 b.1))

instance : IsTotal (String × QueryParamMatcher) qpKeyLe := ⟨fun a b => strLe_total a.1 b.1⟩

instance : IsTrans (String × QueryParamMatcher) qpKeyLe := ⟨fun _ _ _ h1 h2 => strLe_trans h1 h2⟩

/-- `json.Marshal` of the `map[string]QueryParamMatcher` field: members
in sorted key order. -/
def marshalQueryParams (qps : List (String × QueryParamMatcher)) : String :=
  let sorted := qps.insertionSort qpKeyLe
  "\x7b" ++ joinComma (sorted.map fun kv => quoteStr kv.1 ++ ":" ++ marshalQPMatcher kv.2) ++
    "\x7d"

/-- `json.Marshal` of a Go bool. -/
def marshalBool (b : Bool) : String := if b then "true" else "false"

/-- `json.Marshal` of a `types.BodyPattern`: `equalToJson` is a
`json.RawMessage` emitted verbatim (omitted when nil/empty); the two
`*bool` flags are omitted only when the pointer is nil. -/
def marshalBodyPattern (p : BodyPattern) : String :=
  let fs :=
    (match p.equalToJson with
     | some raw => if raw ≠ "" then ["\"equalToJson\":" ++ raw] else []
     | none => []) ++
    (match p.ignoreArrayOrder with
     | some b => ["\"ignoreArrayOrder\":" ++ marshalBool b]
     | none => []) ++
    (match p.ignoreExtraElements with
     | some b => ["\"ignoreExtraElements\":" ++ marshalBool b]
     | none => [])
  "\x7b" ++ joinComma fs ++ "\x7d"

/-- `json.Marshal` of the `[]BodyPattern` slice. -/
def marshalBodyPatterns (ps : List BodyPattern) : String :=
  "[" ++ joinComma (ps.map marshalBodyPattern) ++ "]"

/-- Model of `deduplicationKey` (internal/common record package):
method + url-or-urlPath, with the serialized query-parameter map and
body-pattern list appended when non-empty. -/
def deduplicationKey (m : Mapping) : String :=
  let path := if m.request.url = "" then m.request.urlPath else m.request.url
  let key := m.request.method ++ " " ++ path
  let key :=
    if m.request.queryParameters ≠ [] then
      key ++ " " ++ marshalQueryParams m.request.queryParameters
    else key
  if m.request.bodyPatterns ≠ [] then
    key ++ " " ++ marshalBodyPatterns m.request.bodyPatterns
  else key

/-! The deduplicating converter `exchangesToMappings` and the
scenario-building converter `exchangesToScenarioMappings`. -/

/-- One iteration of the deduplication loop of `exchangesToMappings`:
the state is the `seen` map (key to index into `entries`, modelled as an
association list in insertion order) together with the `entries` slice;
a key seen before has its entry's mapping replaced in place, a new key
appends a new entry. -/
def dedupStep (conv : RecordedExchange → Mapping)
    (st : List (String × Nat) × List (String × Mapping)) (ex : RecordedExchange) :
    List (String × Nat) × List (String × Mapping) :=
  let m := conv ex
  let key := deduplicationKey m
  match st.1.lookup key with
  | some idx => (st.1, st.2.set idx (key, m))
  | none => (st.1 ++ [(key, st.2.length)], st.2 ++ [(key, m)])

/-- The deduplication loop over all exchanges. -/
def dedupLoop (conv : RecordedExchange → Mapping) (exs : List RecordedExchange)
    (st : List (String × Nat) × List (String × Mapping)) :
    List (String × Nat) × List (String × Mapping) :=
  exs.foldl (dedupStep conv) st

/-- The strict comparison `sort.SliceStable` is given in `sortMappings`:
by name, with the deduplication key as tiebreaker for equal names. -/
def mappingLess (a b : Mapping) : Bool :=
  if a.name ≠ b.name then strLt a.name b.name
  else strLt (deduplicationKey a) (deduplicationKey b)

/-- The non-strict order; a stable sort under strict `less` is the
stable sort under `fun a b => ¬ less b a`. -/
def mappingLe (a b : Mapping) : Prop := mappingLess b a = false

instance : DecidableRel mappingLe := fun a b =>
  inferInstanceAs (Decidable (mappingLess b a = false))

/-- Model of `sortMappings`: a stable sort by name with the
deduplication key as tiebreaker. -/
def sortMappings (ms : List Mapping) : List Mapping := ms.insertionSort mappingLe

/-- Model of `exchangesToMappings`: convert each exchange, deduplicate
by key keeping the last occurrence at the first occurrence's position,
then sort. -/
def exchangesToMappings (jsonContentTypes : List String)
    (preserveKeyOrder sortArrayMembers : Bool) (exs : List RecordedExchange) :
    List Mapping :=
  let conv := exchangeToMapping jsonContentTypes preserveKeyOrder sortArrayMembers
  sortMappings ((dedupLoop conv exs ([], [])).2.map Prod.snd)

/-- The grouping key of `exchangesToScenarioMappings`. -/
def groupKey (ex : RecordedExchange) : String := ex.method ++ " " ++ ex.url

/-- Appending one exchange to its group in the ordered group list
(the Go code keeps a `groups` map plus an `order` slice of first-seen
keys; one list of pairs models both). -/
def groupAdd (key : String) (ex : RecordedExchange) :
    List (String × List RecordedExchange) → List (String × List RecordedExchange)
  | [] => [(key, [ex])]
  | (k, g) :: rest =>
    if k = key then (k, g ++ [ex]) :: rest
    else (k, g) :: groupAdd key ex rest

/-- The grouping loop of `exchangesToScenarioMappings`. -/
def groupLoop (exs : List RecordedExchange) : List (String × List RecordedExchange) :=
  exs.foldl (fun gs ex => groupAdd (groupKey ex) ex gs) []

/-- The zero `RecordedExchange` (only used to give `List.headD` a
default; the groups the code indexes into are never empty). -/
def emptyExchange : RecordedExchange :=
  { method := "", url := "", reqBody := "", status := 0, respHeaders := [], respBody := "" }

/-- The per-group mapping builder of `exchangesToScenarioMappings`: a
single occurrence converts plainly; a repeated group becomes a scenario
chain named after the first exchange's URL, stepping through states
`Started`, `state_1`, `state_2`, …, with `newScenarioState` set on every
stub but the last. -/
def scenarioChunk (conv : RecordedExchange → Mapping) (g : List RecordedExchange) :
    List Mapping :=
  if g.length = 1 then [conv (g.headD emptyExchange)]
  else
    let sName := generateMappingName (g.headD emptyExchange).url
    g.enum.map fun p =>
      { conv p.2 with
        scenarioName := sName
        requiredScenarioState := if p.1 = 0 then "Started" else "state_" ++ natStr p.1
        newScenarioState :=
          if p.1 < g.length - 1 then "state_" ++ natStr (p.1 + 1) else "" }

/-- Model of `exchangesToScenarioMappings`: group by method + raw URL in
first-seen order, expand each group into its stubs, then sort. -/
def exchangesToScenarioMappings (jsonContentTypes : List String)
    (preserveKeyOrder sortArrayMembers : Bool) (exs : List RecordedExchange) :
    List Mapping :=
  let conv := exchangeToMapping jsonContentTypes preserveKeyOrder sortArrayMembers
  sortMappings (((groupLoop exs).map fun kg => scenarioChunk conv kg.2).flatten)

/-! Order facts about the sort comparison of `sortMappings`, needed for
the sorting lemmas from the library. -/

theorem strLt_connex {a b : String} (h1 : strLt a b = false) (h2 : strLt b a = false) :
    a = b :=
  congrArg String.mk (charListLt_connex (a := a.toList) (b := b.toList) h1 h2)

theorem strLt_neg_trans {x y z : String} (h1 : strLt y x = false)
    (h2 : strLt z y = false) : strLt z x = false := by
  cases hzx : strLt z x
  · rfl
  · exfalso
    cases hyz : strLt y z
    · have he : y = z := strLt_connex hyz h2
      rw [he, hzx] at h1
      exact Bool.noConfusion h1
    · have ht := strLt_trans hyz hzx
      rw [ht] at h1
      exact Bool.noConfusion h1

theorem mappingLess_asymm {a b : Mapping} (h1 : mappingLess a b = true)
    (h2 : mappingLess b a = true) : False := by
  simp only [mappingLess] at h1 h2
  by_cases hn : a.name = b.name
  · rw [if_neg (fun hc => hc hn)] at h1
    rw [if_neg (fun hc => hc hn.symm)] at h2
    exact strLt_asymm h1 h2
  · rw [if_pos hn] at h1
    rw [if_pos (fun hc => hn hc.symm)] at h2
    exact strLt_asymm h1 h2

theorem mappingLe_total : ∀ a b : Mapping, mappingLe a b ∨ mappingLe b a := by
  intro a b
  by_cases h : mappingLess b a = true
  · right
    cases hx : mappingLess a b
    · exact hx
    · exact absurd (mappingLess_asymm hx h) id
  · left
    cases hx : mappingLess b a
    · exact hx
    · exact absurd hx h

theorem mappingLe_trans {a b c : Mapping} (h1 : mappingLe a b) (h2 : mappingLe b c) :
    mappingLe a c := by
  simp only [mappingLe, mappingLess] at h1 h2 ⊢
  by_cases hba : b.name = a.name
  · by_cases hcb : c.name = b.name
    · rw [if_neg (fun hc => hc hba)] at h1
      rw [if_neg (fun hc => hc hcb)] at h2
      rw [if_neg (fun hc => hc (hcb.trans hba))]
      exact strLt_neg_trans h1 h2
    · rw [if_pos hcb] at h2
      rw [if_pos (fun hc : c.name = a.name => hcb (hc.trans hba.symm))]
      rw [hba] at h2
      exact h2
  · by_cases hcb : c.name = b.name
    · rw [if_pos hba] at h1
      rw [if_pos (fun hc : c.name = a.name => hba (hcb.symm.trans hc))]
      rw [← hcb] at h1
      exact h1
    · rw [if_pos hba] at h1
      rw [if_pos hcb] at h2
      by_cases hca : c.name = a.name
      · have h1' : strLt b.name c.name = false := by rw [hca]; exact h1
        exact absurd (strLt_connex h2 h1') hcb
      · rw [if_pos hca]
        exact strLt_neg_trans h1 h2

instance : IsTotal Mapping mappingLe := ⟨mappingLe_total⟩

instance : IsTrans Mapping mappingLe := ⟨fun _ _ _ => mappingLe_trans⟩

/-! First-occurrence keys: the order in which the deduplication loop (and
the grouping loop) creates entries. -/

/-- The keys of a list in first-occurrence order, skipping keys already
seen. -/
def firstOccAux : List String → List String → List String
  | [], _ => []
  | k :: ks, seen =>
    if k ∈ seen then firstOccAux ks seen else k :: firstOccAux ks (k :: seen)

/-- The distinct keys of a list, in order of first occurrence. -/
def firstOccKeys (ks : List String) : List String := firstOccAux ks []

theorem firstOccAux_mem : ∀ (ks seen : List String) (x : String),
    x ∈ firstOccAux ks seen ↔ x ∈ ks ∧ x ∉ seen
  | [], seen, x => by simp [firstOccAux]
  | k :: ks, seen, x => by
    by_cases hk : k ∈ seen
    · rw [firstOccAux, if_pos hk, firstOccAux_mem ks seen x]
      constructor
      · rintro ⟨hks, hns⟩
        exact ⟨List.mem_cons_of_mem _ hks, hns⟩
      · rintro ⟨hkk, hns⟩
        rcases List.mem_cons.mp hkk with he | hm
        · exact absurd (he ▸ hk) hns
        · exact ⟨hm, hns⟩
    · rw [firstOccAux, if_neg hk]
      constructor
      · intro hmem
        rcases List.mem_cons.mp hmem with he | hm
        · subst he
          exact ⟨List.mem_cons_self _ _, hk⟩
        · obtain ⟨h1, h2⟩ := (firstOccAux_mem ks (k :: seen) x).mp hm
          exact ⟨List.mem_cons_of_mem _ h1, fun hc => h2 (List.mem_cons_of_mem _ hc)⟩
      · rintro ⟨hkk, hns⟩
        rcases List.mem_cons.mp hkk with he | hm
        · subst he
          exact List.mem_cons_self _ _
        · by_cases hxk : x = k
          · subst hxk
            exact List.mem_cons_self _ _
          · refine List.mem_cons_of_mem _ ((firstOccAux_mem ks (k :: seen) x).mpr ⟨hm, ?_⟩)
            intro hc
            exact (List.mem_cons.mp hc).elim hxk hns

theorem firstOccAux_nodup : ∀ (ks seen : List String), (firstOccAux ks seen).Nodup
  | [], _ => List.nodup_nil
  | k :: ks, seen => by
    rw [firstOccAux]
    by_cases hk : k ∈ seen
    · rw [if_pos hk]
      exact firstOccAux_nodup ks seen
    · rw [if_neg hk]
      refine List.Nodup.cons ?_ (firstOccAux_nodup ks (k :: seen))
      intro hmem
      exact ((firstOccAux_mem ks (k :: seen) k).mp hmem).2 (List.mem_cons_self _ _)

theorem firstOccAux_concat : ∀ (l seen : List String) (k : String),
    firstOccAux (l ++ [k]) seen =
      firstOccAux l seen ++ (if k ∈ seen ∨ k ∈ l then [] else [k])
  | [], seen, k => by
    by_cases hk : k ∈ seen
    · simp only [List.nil_append, firstOccAux, if_pos hk, List.not_mem_nil, or_false,
        List.append_nil]
    · simp only [List.nil_append, firstOccAux, if_neg hk, List.not_mem_nil, or_false]
  | x :: l, seen, k => by
    simp only [List.cons_append, firstOccAux, List.append_eq]
    by_cases hx : x ∈ seen
    · rw [if_pos hx, if_pos hx, firstOccAux_concat l seen k]
      congr 1
      refine if_congr ?_ rfl rfl
      constructor
      · rintro (h | h)
        · exact Or.inl h
        · exact Or.inr (List.mem_cons_of_mem _ h)
      · rintro (h | h)
        · exact Or.inl h
        · rcases List.mem_cons.mp h with he | hm
          · exact Or.inl (by rw [he]; exact hx)
          · exact Or.inr hm
    · rw [if_neg hx, if_neg hx, firstOccAux_concat l (x :: seen) k, List.cons_append]
      congr 2
      refine if_congr ?_ rfl rfl
      constructor
      · rintro (h | h)
        · rcases List.mem_cons.mp h with he | hm
          · exact Or.inr (by rw [he]; exact List.mem_cons_self _ _)
          · exact Or.inl hm
        · exact Or.inr (List.mem_cons_of_mem _ h)
      · rintro (h | h)
        · exact Or.inl (List.mem_cons_of_mem _ h)
        · rcases List.mem_cons.mp h with he | hm
          · exact Or.inl (by rw [he]; exact List.mem_cons_self _ _)
          · exact Or.inr hm

theorem firstOccKeys_concat (l : List String) (k : String) :
    firstOccKeys (l ++ [k]) = firstOccKeys l ++ (if k ∈ l then [] else [k]) := by
  rw [firstOccKeys, firstOccKeys, firstOccAux_concat l [] k]
  congr 1
  refine if_congr ?_ rfl rfl
  simp

theorem firstOccKeys_mem (l : List String) (x : String) :
    x ∈ firstOccKeys l ↔ x ∈ l := by
  rw [firstOccKeys, firstOccAux_mem]
  simp

theorem firstOccKeys_nodup (l : List String) : (firstOccKeys l).Nodup :=
  firstOccAux_nodup l []

/-! The invariant of the deduplication loop: the entries' keys are the
distinct deduplication keys of the converted mappings in
first-occurrence order, each entry stores the latest conversion bearing
its key, and the `seen` map indexes the entries. -/

theorem lookup_append_nat : ∀ (l1 l2 : List (String × Nat)) (k : String),
    (l1 ++ l2).lookup k = ((l1.lookup k).or (l2.lookup k))
  | [], l2, k => by simp [List.lookup]
  | (x, y) :: l1, l2, k => by
    simp only [List.cons_append, List.lookup]
    cases h : k == x <;> simp [h, lookup_append_nat l1 l2 k]

theorem set_self_of_get {α : Type _} : ∀ (l : List α) (i : Nat) (a : α)
    (h : i < l.length), l.get ⟨i, h⟩ = a → l.set i a = l
  | x :: xs, 0, a, _, hget => by
    subst hget
    rfl
  | x :: xs, i + 1, a, h, hget => by
    have hrec : xs.set i a = xs :=
      set_self_of_get xs i a (Nat.lt_of_succ_lt_succ h) hget
    show x :: xs.set i a = x :: xs
    rw [hrec]

theorem filter_dk_eq_nil {ms : List Mapping} {k : String}
    (h : k ∉ ms.map deduplicationKey) :
    (ms.filter fun m => deduplicationKey m == k) = [] := by
  rw [List.filter_eq_nil_iff]
  intro m hm
  simp only [beq_iff_eq]
  exact fun hc => h (hc ▸ List.mem_map_of_mem _ hm)

/-- The invariant the deduplication loop maintains: `ms` is the list of
conversions processed so far, the state is the (`seen`, `entries`)
pair. -/
def DedupInv (ms : List Mapping)
    (st : List (String × Nat) × List (String × Mapping)) : Prop :=
  st.2.map Prod.fst = firstOccKeys (ms.map deduplicationKey) ∧
  (∀ p (hp : p < st.2.length),
    (st.2.get ⟨p, hp⟩).1 = deduplicationKey (st.2.get ⟨p, hp⟩).2 ∧
    (ms.filter fun m => deduplicationKey m == (st.2.get ⟨p, hp⟩).1).getLast? =
      some (st.2.get ⟨p, hp⟩).2) ∧
  (∀ k i, st.1.lookup k = some i →
    ∃ hi : i < st.2.length, (st.2.get ⟨i, hi⟩).1 = k) ∧
  (∀ k, st.1.lookup k = none → k ∉ st.2.map Prod.fst)

theorem DedupInv_nil : DedupInv [] ([], []) := by
  refine ⟨rfl, ?_, ?_, ?_⟩
  · intro p hp
    exact absurd hp (Nat.not_lt_zero p)
  · intro k i hlk
    simp [List.lookup] at hlk
  · intro k _
    simp

theorem DedupInv_step (conv : RecordedExchange → Mapping) (ms : List Mapping)
    (st : List (String × Nat) × List (String × Mapping)) (ex : RecordedExchange)
    (h : DedupInv ms st) : DedupInv (ms ++ [conv ex]) (dedupStep conv st ex) := by
  obtain ⟨h1, h2, h3, h4⟩ := h
  have hnodup : (st.2.map Prod.fst).Nodup := by
    rw [h1]
    exact firstOccKeys_nodup _
  simp only [dedupStep]
  split
  next idx hl =>
    obtain ⟨hi, hkeq⟩ := h3 _ _ hl
    have hkeys : (st.2.set idx (deduplicationKey (conv ex), conv ex)).map Prod.fst =
        st.2.map Prod.fst := by
      rw [List.map_set]
      refine set_self_of_get _ _ _ (by rw [List.length_map]; exact hi) ?_
      simp only [List.get_eq_getElem, List.getElem_map]
      simp only [List.get_eq_getElem] at hkeq
      exact hkeq
    have hmem : deduplicationKey (conv ex) ∈ ms.map deduplicationKey := by
      rw [← firstOccKeys_mem, ← h1, ← hkeq]
      exact List.mem_map_of_mem _ (List.get_mem _ _ _)
    refine ⟨?_, ?_, ?_, ?_⟩
    · rw [hkeys, List.map_append, List.map_cons, List.map_nil, firstOccKeys_concat,
        if_pos hmem, List.append_nil, h1]
    · intro p hp
      have hplen : p < st.2.length := by
        simpa [List.length_set] using hp
      by_cases hpi : p = idx
      · subst hpi
        have hget : (st.2.set p (deduplicationKey (conv ex), conv ex)).get ⟨p, hp⟩ =
            (deduplicationKey (conv ex), conv ex) := by
          simp only [List.get_eq_getElem, List.getElem_set]
          simp
        rw [hget]
        refine ⟨rfl, ?_⟩
        rw [List.filter_append]
        have hflt : List.filter
            (fun m => deduplicationKey m == deduplicationKey (conv ex)) [conv ex] =
            [conv ex] := by
          simp [List.filter]
        rw [hflt, List.getLast?_concat]
      · have hget : (st.2.set idx (deduplicationKey (conv ex), conv ex)).get ⟨p, hp⟩ =
            st.2.get ⟨p, hplen⟩ := by
          simp only [List.get_eq_getElem, List.getElem_set]
          rw [if_neg (fun hc => hpi hc.symm)]
        rw [hget]
        obtain ⟨hfst, hlast⟩ := h2 p hplen
        refine ⟨hfst, ?_⟩
        have hne : deduplicationKey (conv ex) ≠ (st.2.get ⟨p, hplen⟩).1 := by
          intro hc
          have hpk : (st.2.map Prod.fst).get ⟨p, by rw [List.length_map]; exact hplen⟩ =
              (st.2.map Prod.fst).get ⟨idx, by rw [List.length_map]; exact hi⟩ := by
            simp only [List.get_eq_getElem, List.getElem_map]
            simp only [List.get_eq_getElem] at hkeq hc
            rw [← hc, hkeq]
          have hfin := (List.Nodup.get_inj_iff hnodup).mp hpk
          exact hpi (by simpa using congrArg Fin.val hfin)
        rw [List.filter_append]
        have hflt : List.filter
            (fun m => deduplicationKey m == (st.2.get ⟨p, hplen⟩).1) [conv ex] = [] := by
          simp only [List.filter_cons, List.filter_nil]
          rw [if_neg]
          intro hc
          exact hne (by simpa using hc)
        rw [hflt, List.append_nil, hlast]
    · intro k i hlk
      obtain ⟨hi', hk'⟩ := h3 k i hlk
      refine ⟨by simpa [List.length_set] using hi', ?_⟩
      by_cases hii : idx = i
      · subst hii
        have hget : (st.2.set idx (deduplicationKey (conv ex), conv ex)).get
            ⟨idx, by simpa [List.length_set] using hi'⟩ =
            (deduplicationKey (conv ex), conv ex) := by
          simp only [List.get_eq_getElem, List.getElem_set]
          simp
        rw [hget]
        rw [← hkeq]
        exact hk'
      · have hget : (st.2.set idx (deduplicationKey (conv ex), conv ex)).get
            ⟨i, by simpa [List.length_set] using hi'⟩ = st.2.get ⟨i, hi'⟩ := by
          simp only [List.get_eq_getElem, List.getElem_set]
          rw [if_neg hii]
        rw [hget]
        exact hk'
    · intro k hlk
      rw [hkeys]
      exact h4 k hlk
  next hl =>
    have hknotin : deduplicationKey (conv ex) ∉ st.2.map Prod.fst := h4 _ hl
    have hknotms : deduplicationKey (conv ex) ∉ ms.map deduplicationKey := by
      intro hc
      apply hknotin
      rw [h1]
      exact (firstOccKeys_mem _ _).mpr hc
    refine ⟨?_, ?_, ?_, ?_⟩
    · simp only [List.map_append, List.map_cons, List.map_nil]
      rw [firstOccKeys_concat, if_neg hknotms, h1]
    · intro p hp
      by_cases hplt : p < st.2.length
      · have hget : (st.2 ++ [(deduplicationKey (conv ex), conv ex)]).get ⟨p, hp⟩ =
            st.2.get ⟨p, hplt⟩ := by
          simp only [List.get_eq_getElem]
          exact List.getElem_append_left hplt
        rw [hget]
        obtain ⟨hfst, hlast⟩ := h2 p hplt
        refine ⟨hfst, ?_⟩
        have hinkeys : (st.2.get ⟨p, hplt⟩).1 ∈ st.2.map Prod.fst :=
          List.mem_map_of_mem _ (List.get_mem _ _ _)
        have hne : deduplicationKey (conv ex) ≠ (st.2.get ⟨p, hplt⟩).1 := by
          intro hc
          exact hknotin (hc ▸ hinkeys)
        rw [List.filter_append]
        have hflt : List.filter
            (fun m => deduplicationKey m == (st.2.get ⟨p, hplt⟩).1) [conv ex] = [] := by
          simp only [List.filter_cons, List.filter_nil]
          rw [if_neg]
          intro hc
          exact hne (by simpa using hc)
        rw [hflt, List.append_nil, hlast]
      · have hpe : p = st.2.length := by
          have hub : p < st.2.length + 1 := by simpa using hp
          omega
        subst hpe
        have hget : (st.2 ++ [(deduplicationKey (conv ex), conv ex)]).get
            ⟨st.2.length, hp⟩ = (deduplicationKey (conv ex), conv ex) := by
          simp only [List.get_eq_getElem]
          exact List.getElem_concat_length st.2 _ _ rfl _
        rw [hget]
        refine ⟨rfl, ?_⟩
        rw [List.filter_append, filter_dk_eq_nil hknotms, List.nil_append]
        simp [List.filter]
    · intro k i hlk
      rw [lookup_append_nat] at hlk
      cases hx : st.1.lookup k with
      | some j =>
        rw [hx] at hlk
        have hji : j = i := by simpa using hlk
        subst hji
        obtain ⟨hij, hk'⟩ := h3 k j hx
        refine ⟨by simpa using Nat.lt_succ_of_lt hij, ?_⟩
        have hget : (st.2 ++ [(deduplicationKey (conv ex), conv ex)]).get
            ⟨j, by simpa using Nat.lt_succ_of_lt hij⟩ = st.2.get ⟨j, hij⟩ := by
          simp only [List.get_eq_getElem]
          exact List.getElem_append_left hij
        rw [hget]
        exact hk'
      | none =>
        rw [hx] at hlk
        simp only [Option.none_or] at hlk
        cases hk : k == deduplicationKey (conv ex) <;>
          simp only [List.lookup, hk] at hlk
        · exact Option.noConfusion hlk
        · have hie : st.2.length = i := Option.some.inj hlk
          subst hie
          refine ⟨by simp, ?_⟩
          have hget : (st.2 ++ [(deduplicationKey (conv ex), conv ex)]).get
              ⟨st.2.length, by simp⟩ = (deduplicationKey (conv ex), conv ex) := by
            simp only [List.get_eq_getElem]
            exact List.getElem_concat_length st.2 _ _ rfl _
          rw [hget]
          exact (eq_of_beq hk).symm
    · intro k hlk
      rw [lookup_append_nat] at hlk
      have hpair : st.1.lookup k = none ∧
          List.lookup k [(deduplicationKey (conv ex), st.2.length)] = none := by
        cases hx : st.1.lookup k <;> rw [hx] at hlk
        · exact ⟨rfl, by simpa using hlk⟩
        · simp at hlk
      obtain ⟨hxa, hxb⟩ := hpair
      have hkne : k ≠ deduplicationKey (conv ex) := by
        intro hc
        subst hc
        simp [List.lookup] at hxb
      have hnotold := h4 k hxa
      simp only [List.map_append, List.map_cons, List.map_nil]
      intro hc
      rcases List.mem_append.mp hc with hcl | hcr
      · exact hnotold hcl
      · exact hkne (by simpa using hcr)

theorem dedupLoop_inv (conv : RecordedExchange → Mapping) :
    ∀ (exs : List RecordedExchange) (ms : List Mapping)
      (st : List (String × Nat) × List (String × Mapping)),
      DedupInv ms st → DedupInv (ms ++ exs.map conv) (dedupLoop conv exs st)
  | [], ms, st, h => by simpa [dedupLoop] using h
  | ex :: exs, ms, st, h => by
    have hstep := DedupInv_step conv ms st ex h
    have hrec := dedupLoop_inv conv exs (ms ++ [conv ex]) (dedupStep conv st ex) hstep
    have he : ms ++ (conv ex :: exs.map conv) = (ms ++ [conv ex]) ++ exs.map conv := by
      simp
    simp only [dedupLoop, List.foldl_cons] at hrec ⊢
    rw [List.map_cons, he]
    exact hrec

theorem dedupLoop_invariant (conv : RecordedExchange → Mapping)
    (exs : List RecordedExchange) :
    DedupInv (exs.map conv) (dedupLoop conv exs ([], [])) := by
  have := dedupLoop_inv conv exs [] ([], []) DedupInv_nil
  simpa using this

/-- C3: in deduplicating (non-scenario) export mode, converted stubs
sharing a deduplication key collapse into exactly one entry: the dedup
entries carry pairwise distinct keys listed in first-occurrence order
(the repeated key keeps the first occurrence's position), each entry
stores the conversion of the **last** exchange bearing its key, and the
final mapping list is a permutation of the entries' stubs sorted by stub
name with the deduplication key as tiebreak. -/
theorem claim_C3_dedup_last_occurrence_sorted (jsonTypes : List String)
    (pko sam : Bool) (exs : List RecordedExchange) :
    let conv := exchangeToMapping jsonTypes pko sam
    let entries := (dedupLoop conv exs ([], [])).2
    entries.map Prod.fst = firstOccKeys ((exs.map conv).map deduplicationKey) ∧
    (entries.map Prod.fst).Nodup ∧
    (∀ p (hp : p < entries.length),
      (entries.get ⟨p, hp⟩).1 = deduplicationKey (entries.get ⟨p, hp⟩).2 ∧
      ((exs.map conv).filter
          fun m => deduplicationKey m == (entries.get ⟨p, hp⟩).1).getLast? =
        some (entries.get ⟨p, hp⟩).2) ∧
    (exchangesToMappings jsonTypes pko sam exs).Perm (entries.map Prod.snd) ∧
    List.Pairwise mappingLe (exchangesToMappings jsonTypes pko sam exs) := by
  intro conv entries
  obtain ⟨h1, h2, _, _⟩ := dedupLoop_invariant conv exs
  refine ⟨h1, ?_, h2, ?_, ?_⟩
  · rw [h1]
    exact firstOccKeys_nodup _
  · simp only [exchangesToMappings, sortMappings]
    exact List.perm_insertionSort mappingLe _
  · simp only [exchangesToMappings, sortMappings]
    exact List.sorted_insertionSort mappingLe _

/-- Two exchanges with identical request shape but drifting responses,
and a third with a different path, exercising the dedup pipeline. -/
def c3Ex1 : RecordedExchange :=
  { method := "GET", url := "/a", reqBody := "", status := 200
    respHeaders := [], respBody := "r1" }

def c3Ex2 : RecordedExchange :=
  { method := "GET", url := "/a", reqBody := "", status := 200
    respHeaders := [], respBody := "r2" }

def c3Ex3 : RecordedExchange :=
  { method := "GET", url := "/b", reqBody := "", status := 200
    respHeaders := [], respBody := "rb" }

example : deduplicationKey (exchangeToMapping [] false false c3Ex1) = "GET /a" := by decide

example : deduplicationKey (exchangeToMapping [] false false c3Ex2) = "GET /a" := by decide

example :
    (exchangesToMappings [] false false [c3Ex1, c3Ex3, c3Ex2]).map
        (fun m => (m.name, m.response.body)) = [("a", "r2"), ("b", "rb")] := by
  decide

example :
    deduplicationKey (exchangeToMapping [] false false
        { method := "GET", url := "/a?x=1", reqBody := "", status := 200
          respHeaders := [], respBody := "" }) =
      "GET /a \x7b\"x\":\x7b\"hasExactly\":[\x7b\"equalTo\":\"1\"\x7d]\x7d\x7d" := by
  decide

/-! The grouping loop invariant of `exchangesToScenarioMappings`. -/

theorem filter_gk_eq_nil {ms : List RecordedExchange} {k : String}
    (h : k ∉ ms.map groupKey) : (ms.filter fun e => groupKey e == k) = [] := by
  rw [List.filter_eq_nil_iff]
  intro e he
  simp only [beq_iff_eq]
  exact fun hc => h (hc ▸ List.mem_map_of_mem _ he)

theorem groupAdd_not_mem (key : String) (ex : RecordedExchange) :
    ∀ gs : List (String × List RecordedExchange), key ∉ gs.map Prod.fst →
      groupAdd key ex gs = gs ++ [(key, [ex])]
  | [], _ => rfl
  | (k, g) :: rest, h => by
    have hk : ¬(k = key) := fun hc => h (by rw [hc]; exact List.mem_cons_self _ _)
    simp only [groupAdd]
    rw [if_neg hk,
      groupAdd_not_mem key ex rest (fun hc => h (List.mem_cons_of_mem _ hc)),
      List.cons_append]

theorem groupAdd_at_key (key : String) (ex : RecordedExchange) :
    ∀ (gs : List (String × List RecordedExchange)) (q : Nat) (hq : q < gs.length),
      (gs.map Prod.fst).Nodup → (gs.get ⟨q, hq⟩).1 = key →
      groupAdd key ex gs = gs.set q (key, (gs.get ⟨q, hq⟩).2 ++ [ex])
  | (k, g) :: rest, 0, _, _, hkey => by
    have hk : k = key := hkey
    simp only [groupAdd]
    rw [if_pos hk]
    subst hk
    rfl
  | (k, g) :: rest, q + 1, hq, hnd, hkey => by
    have hq' : q < rest.length := Nat.lt_of_succ_lt_succ hq
    have hkey' : (rest.get ⟨q, hq'⟩).1 = key := hkey
    simp only [List.map_cons] at hnd
    have hnd' : (rest.map Prod.fst).Nodup := (List.nodup_cons.mp hnd).2
    have hkmem : key ∈ rest.map Prod.fst := by
      rw [← hkey']
      exact List.mem_map_of_mem _ (List.get_mem _ _ _)
    have hk : ¬(k = key) := fun hc => (List.nodup_cons.mp hnd).1 (hc ▸ hkmem)
    simp only [groupAdd]
    rw [if_neg hk, groupAdd_at_key key ex rest q hq' hnd' hkey']
    rfl

/-- The invariant of the grouping loop: the groups' keys are the distinct
grouping keys of the processed exchanges in first-occurrence order, and
each group holds exactly the processed exchanges bearing its key, in
arrival order. -/
def GroupInv (ms : List RecordedExchange)
    (gs : List (String × List RecordedExchange)) : Prop :=
  gs.map Prod.fst = firstOccKeys (ms.map groupKey) ∧
  ∀ p (hp : p < gs.length),
    (gs.get ⟨p, hp⟩).2 = ms.filter fun e => groupKey e == (gs.get ⟨p, hp⟩).1

theorem GroupInv_step (ms : List RecordedExchange)
    (gs : List (String × List RecordedExchange)) (ex : RecordedExchange)
    (h : GroupInv ms gs) : GroupInv (ms ++ [ex]) (groupAdd (groupKey ex) ex gs) := by
  obtain ⟨h1, h2⟩ := h
  have hnodup : (gs.map Prod.fst).Nodup := by
    rw [h1]
    exact firstOccKeys_nodup _
  by_cases hmem : groupKey ex ∈ gs.map Prod.fst
  · obtain ⟨q, hqfin⟩ := List.mem_iff_get.mp hmem
    have hq : q.1 < gs.length := by
      have := q.2
      simpa [List.length_map] using this
    have hkeyq : (gs.get ⟨q.1, hq⟩).1 = groupKey ex := by
      have := hqfin
      simp only [List.get_eq_getElem, List.getElem_map] at this
      simpa [List.get_eq_getElem] using this
    rw [groupAdd_at_key (groupKey ex) ex gs q.1 hq hnodup hkeyq]
    have hmemms : groupKey ex ∈ ms.map groupKey := by
      rw [← firstOccKeys_mem, ← h1]
      exact hmem
    constructor
    · rw [List.map_set]
      rw [set_self_of_get _ _ _ q.2
        (by simp only [List.get_eq_getElem, List.getElem_map]
            simp only [List.get_eq_getElem] at hkeyq
            exact hkeyq)]
      rw [List.map_append, List.map_cons, List.map_nil, firstOccKeys_concat,
        if_pos hmemms, List.append_nil, h1]
    · intro p hp
      have hplen : p < gs.length := by
        simpa [List.length_set] using hp
      by_cases hpq : p = q.1
      · subst hpq
        have hget : (gs.set q.1 (groupKey ex, (gs.get ⟨q.1, hq⟩).2 ++ [ex])).get
            ⟨q.1, hp⟩ = (groupKey ex, (gs.get ⟨q.1, hq⟩).2 ++ [ex]) := by
          simp only [List.get_eq_getElem, List.getElem_set]
          simp
        rw [hget]
        show (gs.get ⟨q.1, hq⟩).2 ++ [ex] =
          List.filter (fun e => groupKey e == groupKey ex) (ms ++ [ex])
        have hflt : List.filter (fun e => groupKey e == groupKey ex) [ex] = [ex] := by
          simp [List.filter]
        rw [List.filter_append, hflt, ← hkeyq, ← h2 q.1 hq]
      · have hget : (gs.set q.1 (groupKey ex, (gs.get ⟨q.1, hq⟩).2 ++ [ex])).get
            ⟨p, hp⟩ = gs.get ⟨p, hplen⟩ := by
          simp only [List.get_eq_getElem, List.getElem_set]
          rw [if_neg (fun hc => hpq hc.symm)]
        rw [hget]
        have hne : groupKey ex ≠ (gs.get ⟨p, hplen⟩).1 := by
          intro hc
          have hpk : (gs.map Prod.fst).get ⟨p, by rw [List.length_map]; exact hplen⟩ =
              (gs.map Prod.fst).get ⟨q.1, q.2⟩ := by
            simp only [List.get_eq_getElem, List.getElem_map]
            simp only [List.get_eq_getElem] at hkeyq hc
            rw [← hc, hkeyq]
          have hfin := (List.Nodup.get_inj_iff hnodup).mp hpk
          exact hpq (by simpa using congrArg Fin.val hfin)
        rw [List.filter_append]
        have hflt : List.filter
            (fun e => groupKey e == (gs.get ⟨p, hplen⟩).1) [ex] = [] := by
          simp only [List.filter_cons, List.filter_nil]
          rw [if_neg]
          intro hc
          exact hne (by simpa using hc)
        rw [hflt, List.append_nil, h2 p hplen]
  · rw [groupAdd_not_mem (groupKey ex) ex gs hmem]
    have hnotms : groupKey ex ∉ ms.map groupKey := by
      intro hc
      apply hmem
      rw [h1]
      exact (firstOccKeys_mem _ _).mpr hc
    constructor
    · simp only [List.map_append, List.map_cons, List.map_nil]
      rw [firstOccKeys_concat, if_neg hnotms, h1]
    · intro p hp
      by_cases hplt : p < gs.length
      · have hget : (gs ++ [(groupKey ex, [ex])]).get ⟨p, hp⟩ = gs.get ⟨p, hplt⟩ := by
          simp only [List.get_eq_getElem]
          exact List.getElem_append_left hplt
        rw [hget]
        have hinkeys : (gs.get ⟨p, hplt⟩).1 ∈ gs.map Prod.fst :=
          List.mem_map_of_mem _ (List.get_mem _ _ _)
        have hne : groupKey ex ≠ (gs.get ⟨p, hplt⟩).1 := by
          intro hc
          exact hmem (hc ▸ hinkeys)
        rw [List.filter_append]
        have hflt : List.filter
            (fun e => groupKey e == (gs.get ⟨p, hplt⟩).1) [ex] = [] := by
          simp only [List.filter_cons, List.filter_nil]
          rw [if_neg]
          intro hc
          exact hne (by simpa using hc)
        rw [hflt, List.append_nil, h2 p hplt]
      · have hpe : p = gs.length := by
          have hub : p < gs.length + 1 := by simpa using hp
          omega
        subst hpe
        have hget : (gs ++ [(groupKey ex, [ex])]).get ⟨gs.length, hp⟩ =
            (groupKey ex, [ex]) := by
          simp only [List.get_eq_getElem]
          exact List.getElem_concat_length gs _ _ rfl _
        rw [hget]
        rw [List.filter_append, filter_gk_eq_nil hnotms, List.nil_append]
        simp [List.filter]

theorem groupLoop_inv : ∀ (exs ms : List RecordedExchange)
    (gs : List (String × List RecordedExchange)), GroupInv ms gs →
    GroupInv (ms ++ exs) (exs.foldl (fun acc e => groupAdd (groupKey e) e acc) gs)
  | [], ms, gs, h => by simpa using h
  | ex :: exs, ms, gs, h => by
    have hstep := GroupInv_step ms gs ex h
    have hrec := groupLoop_inv exs (ms ++ [ex]) (groupAdd (groupKey ex) ex gs) hstep
    have he : ms ++ (ex :: exs) = (ms ++ [ex]) ++ exs := by simp
    simp only [List.foldl_cons]
    rw [he]
    exact hrec

theorem groupLoop_invariant (exs : List RecordedExchange) :
    GroupInv exs (groupLoop exs) := by
  have hbase : GroupInv [] [] := by
    refine ⟨rfl, ?_⟩
    intro p hp
    exact absurd hp (Nat.not_lt_zero p)
  have := groupLoop_inv exs [] [] hbase
  simpa [groupLoop] using this

/-- C4: in scenario-chaining export mode, every group of exchanges
sharing method + raw URI (the grouping key, groups formed in first-seen
order) holds exactly the exchanges bearing its key in arrival order; a
group of N > 1 expands to exactly N stubs — contributed contiguously to
the pre-sort output — sharing the scenario name generated from the first
exchange's URL, with requiredScenarioState `Started`, `state_1`, …,
`state_{N-1}` in arrival order and newScenarioState `state_{i+1}` on all
but the last stub (empty on the last); a singleton group yields one stub
with empty scenario fields; the final list is the sorted permutation of
the groups' contributions. -/
theorem claim_C4_scenario_chaining (jsonTypes : List String) (pko sam : Bool)
    (exs : List RecordedExchange) (k : String) (g : List RecordedExchange)
    (hmem : (k, g) ∈ groupLoop exs) :
    let conv := exchangeToMapping jsonTypes pko sam
    g = exs.filter (fun e => groupKey e == k) ∧
    (g.length = 1 →
      scenarioChunk conv g = [conv (g.headD emptyExchange)] ∧
      (conv (g.headD emptyExchange)).scenarioName = "" ∧
      (conv (g.headD emptyExchange)).requiredScenarioState = "" ∧
      (conv (g.headD emptyExchange)).newScenarioState = "") ∧
    (1 < g.length →
      (scenarioChunk conv g).length = g.length ∧
      ∀ i (hi : i < g.length),
        (scenarioChunk conv g)[i]? =
          some { conv (g.get ⟨i, hi⟩) with
                 scenarioName := generateMappingName (g.headD emptyExchange).url
                 requiredScenarioState :=
                   if i = 0 then "Started" else "state_" ++ natStr i
                 newScenarioState :=
                   if i < g.length - 1 then "state_" ++ natStr (i + 1) else "" }) ∧
    (∃ pre1 pre2,
      ((groupLoop exs).map fun kg => scenarioChunk conv kg.2).flatten =
        pre1 ++ (scenarioChunk conv g ++ pre2)) ∧
    (exchangesToScenarioMappings jsonTypes pko sam exs).Perm
      (((groupLoop exs).map fun kg => scenarioChunk conv kg.2).flatten) ∧
    List.Pairwise mappingLe (exchangesToScenarioMappings jsonTypes pko sam exs) := by
  intro conv
  obtain ⟨h1, h2⟩ := groupLoop_invariant exs
  refine ⟨?_, ?_, ?_, ?_, ?_, ?_⟩
  · obtain ⟨n, hn⟩ := List.mem_iff_get.mp hmem
    have hg := h2 n.1 n.2
    have hn' : (groupLoop exs).get ⟨n.1, n.2⟩ = (k, g) := hn
    rw [hn'] at hg
    simpa using hg
  · intro hlen
    refine ⟨?_, rfl, rfl, rfl⟩
    simp only [scenarioChunk]
    rw [if_pos hlen]
  · intro hlen
    have hne1 : ¬(g.length = 1) := by omega
    constructor
    · simp only [scenarioChunk]
      rw [if_neg hne1]
      simp
    · intro i hi
      simp only [scenarioChunk]
      rw [if_neg hne1, List.getElem?_map,
        List.getElem?_eq_getElem (by simpa [List.enum_length] using hi),
        List.getElem_enum]
      rfl
  · obtain ⟨s, t, hst⟩ := List.append_of_mem hmem
    refine ⟨(s.map fun kg => scenarioChunk conv kg.2).flatten,
      (t.map fun kg => scenarioChunk conv kg.2).flatten, ?_⟩
    rw [hst]
    simp
  · simp only [exchangesToScenarioMappings, sortMappings]
    exact List.perm_insertionSort mappingLe _
  · simp only [exchangesToScenarioMappings, sortMappings]
    exact List.sorted_insertionSort mappingLe _

/-- Three exchanges to the same method and raw URI, with an unrelated
exchange interleaved, for the C4 witness. -/
def c4ExS1 : RecordedExchange :=
  { method := "GET", url := "/s", reqBody := "", status := 200
    respHeaders := [], respBody := "r1" }

def c4ExS2 : RecordedExchange :=
  { method := "GET", url := "/s", reqBody := "", status := 200
    respHeaders := [], respBody := "r2" }

def c4ExS3 : RecordedExchange :=
  { method := "GET", url := "/s", reqBody := "", status := 200
    respHeaders := [], respBody := "r3" }

def c4ExT : RecordedExchange :=
  { method := "GET", url := "/t", reqBody := "", status := 200
    respHeaders := [], respBody := "rt" }

def c4Exs : List RecordedExchange := [c4ExS1, c4ExS2, c4ExT, c4ExS3]

/-- Closed witness for C4: the three `/s` exchanges form one group under
the key `GET /s`, and their scenario chain reads `Started → state_1 →
state_2` with `newScenarioState` empty on the last stub. -/
theorem claim_C4_scenario_chaining_witness :
    (("GET /s", [c4ExS1, c4ExS2, c4ExS3]) ∈ groupLoop c4Exs) ∧
    ([c4ExS1, c4ExS2, c4ExS3] = c4Exs.filter fun e => groupKey e == "GET /s") ∧
    ((scenarioChunk (exchangeToMapping [] false false) [c4ExS1, c4ExS2, c4ExS3]).map
        (fun m => (m.scenarioName, m.requiredScenarioState, m.newScenarioState)) =
      [("s", "Started", "state_1"), ("s", "state_1", "state_2"), ("s", "state_2", "")]) :=
  ⟨by decide,
    (claim_C4_scenario_chaining [] false false c4Exs "GET /s" [c4ExS1, c4ExS2, c4ExS3]
        (by decide)).1,
    by decide⟩

end GoodMock
